import Mathlib

set_option maxRecDepth 10000

/-!
Verification of the flow kernel's early memory-management core against its
specification.  The Rust sources under `src/kernel/src/mem` are shallowly
embedded: machine integers (`usize`) are natural numbers with explicit
wrap-around modulo `2^64` (release-build two's-complement semantics),
fallible operations return `Option`/`Except`, and the page-table store is an
explicit list of tables.
-/

namespace Flow

/-- Machine word size: `usize::MAX + 1` on the AArch64 target. -/
def W : ℕ := 2 ^ 64

theorem W_pos : 0 < W := by norm_num [W]

theorem one_mod_W : 1 % W = 1 := Nat.mod_eq_of_lt (by norm_num [W])

/-- Wrapping addition of two machine words (Rust release-mode `+` on `usize`). -/
def wadd (a b : ℕ) : ℕ := (a + b) % W

/-- Wrapping subtraction of machine words (Rust release-mode `-` on `usize`). -/
def wsub (a b : ℕ) : ℕ := (a + (W - b % W)) % W

theorem wadd_eq {a b : ℕ} (h : a + b < W) : wadd a b = a + b :=
  Nat.mod_eq_of_lt h

theorem wsub_eq {a b : ℕ} (hb : b ≤ a) (ha : a < W) : wsub a b = a - b := by
  have hbW : b < W := lt_of_le_of_lt hb ha
  unfold wsub
  rw [Nat.mod_eq_of_lt hbW, show a + (W - b) = (a - b) + W by omega,
    Nat.add_mod_right, Nat.mod_eq_of_lt (by omega)]

/-- `align_down` from `src/kernel/src/mem/vm/paging.rs`:
`value & !(alignment - 1)`; the bitwise complement on `usize` of `n - 1`
is `2^64 - n` for `0 < n`. -/
def alignDown (value alignment : ℕ) : ℕ := value &&& (W - alignment)

/-- `align_up` from `src/kernel/src/mem/vm/paging.rs`:
`((value - 1) | (alignment - 1)) + 1` with wrapping arithmetic. -/
def alignUp (value alignment : ℕ) : ℕ := wadd (wsub value 1 ||| (alignment - 1)) 1

/-- `is_aligned` from `src/kernel/src/mem/vm/paging.rs`: `value & (alignment - 1) == 0`. -/
def isAligned (value alignment : ℕ) : Bool := value &&& (alignment - 1) == 0

/-! ### Arithmetic characterisation of the bit-twiddling helpers -/

theorem lor_two_pow_sub_one_of_lt {r k : ℕ} (h : r < 2 ^ k) :
    r ||| (2 ^ k - 1) = 2 ^ k - 1 := by
  apply Nat.eq_of_testBit_eq
  intro j
  rw [Nat.testBit_or, Nat.testBit_two_pow_sub_one]
  by_cases hj : j < k
  · simp [hj]
  · have : r.testBit j = false := Nat.testBit_lt_two_pow (lt_of_lt_of_le h
      (Nat.pow_le_pow_right (by norm_num) (le_of_not_lt hj)))
    simp [hj, this]

theorem mul_add_lor_two_pow_sub_one {q r k : ℕ} (h : r < 2 ^ k) :
    (2 ^ k * q + r) ||| (2 ^ k - 1) = 2 ^ k * q + (2 ^ k - 1) := by
  have hpow : (0:ℕ) < 2 ^ k := Nat.pos_pow_of_pos _ (by norm_num)
  rw [Nat.mul_add_lt_is_or h, Nat.lor_assoc, lor_two_pow_sub_one_of_lt h,
    ← Nat.mul_add_lt_is_or (Nat.sub_lt hpow Nat.one_pos)]

theorem and_mul_two_pow {k a r m : ℕ} (hr : r < 2 ^ k) :
    (2 ^ k * a + r) &&& (2 ^ k * m) = 2 ^ k * (a &&& m) := by
  apply Nat.eq_of_testBit_eq
  intro j
  rw [Nat.testBit_and, Nat.testBit_mul_pow_two_add _ hr, Nat.testBit_mul_pow_two,
    Nat.testBit_mul_pow_two]
  by_cases hj : j < k
  · have : ¬ j ≥ k := by omega
    simp [hj, this]
  · have : j ≥ k := by omega
    simp [hj, this, Nat.testBit_and]

/-- For power-of-two alignments, `alignDown` is flooring to a multiple. -/
theorem alignDown_eq {v k : ℕ} (hk : k ≤ 64) (hv : v < W) :
    alignDown v (2 ^ k) = 2 ^ k * (v / 2 ^ k) := by
  have hpow : (0:ℕ) < 2 ^ k := Nat.pos_pow_of_pos _ (by norm_num)
  have hW : W - 2 ^ k = 2 ^ k * (2 ^ (64 - k) - 1) := by
    rw [Nat.mul_sub_one, ← pow_add, show k + (64 - k) = 64 by omega]
    rfl
  have hsplit : v = 2 ^ k * (v / 2 ^ k) + v % 2 ^ k := (Nat.div_add_mod v (2 ^ k)).symm
  rw [alignDown, hW]
  conv_lhs => rw [hsplit]
  rw [and_mul_two_pow (Nat.mod_lt _ hpow)]
  congr 1
  have hlt : v / 2 ^ k < 2 ^ (64 - k) := by
    rw [Nat.div_lt_iff_lt_mul hpow, ← pow_add, show 64 - k + k = 64 by omega]
    exact hv
  calc v / 2 ^ k &&& (2 ^ (64 - k) - 1)
      = v / 2 ^ k % 2 ^ (64 - k) := Nat.and_pow_two_sub_one_eq_mod _ _
    _ = v / 2 ^ k := Nat.mod_eq_of_lt hlt

/-- For power-of-two alignments and in-range values, `alignUp` is the
ceiling to a multiple. -/
theorem alignUp_eq {v k : ℕ} (hv1 : 1 ≤ v) (hv : v + 2 ^ k ≤ W) :
    alignUp v (2 ^ k) = 2 ^ k * ((v - 1) / 2 ^ k + 1) := by
  have hpow : (0:ℕ) < 2 ^ k := Nat.pos_pow_of_pos _ (by norm_num)
  have hvW : v < W := by omega
  have h1 : wsub v 1 = v - 1 := wsub_eq hv1 hvW
  rw [alignUp, h1]
  have hsplit : v - 1 = 2 ^ k * ((v - 1) / 2 ^ k) + (v - 1) % 2 ^ k :=
    (Nat.div_add_mod (v - 1) (2 ^ k)).symm
  conv_lhs => rw [hsplit]
  rw [mul_add_lor_two_pow_sub_one (Nat.mod_lt _ hpow)]
  unfold wadd
  have hle : 2 ^ k * ((v - 1) / 2 ^ k) + (2 ^ k - 1) + 1 = 2 ^ k * ((v - 1) / 2 ^ k + 1) := by
    rw [Nat.mul_add, Nat.mul_one]
    omega
  rw [hle]
  apply Nat.mod_eq_of_lt
  calc 2 ^ k * ((v - 1) / 2 ^ k + 1) = 2 ^ k * ((v - 1) / 2 ^ k) + 2 ^ k := by
        rw [Nat.mul_add, Nat.mul_one]
    _ ≤ (v - 1) + 2 ^ k := by
        have := Nat.div_mul_le_self (v - 1) (2 ^ k)
        have h2 : 2 ^ k * ((v - 1) / 2 ^ k) = (v - 1) / 2 ^ k * 2 ^ k := Nat.mul_comm _ _
        omega
    _ < v + 2 ^ k := by omega
    _ ≤ W := hv

/-- `alignUp` at a power of two yields a multiple of that power. -/
theorem alignUp_dvd {v k : ℕ} (hv1 : 1 ≤ v) (hv : v + 2 ^ k ≤ W) :
    2 ^ k ∣ alignUp v (2 ^ k) := by
  rw [alignUp_eq hv1 hv]
  exact Dvd.intro _ rfl

theorem alignUp_ge {v k : ℕ} (hv1 : 1 ≤ v) (hv : v + 2 ^ k ≤ W) :
    v ≤ alignUp v (2 ^ k) := by
  have hpow : (0:ℕ) < 2 ^ k := Nat.pos_pow_of_pos _ (by norm_num)
  rw [alignUp_eq hv1 hv, Nat.mul_add, Nat.mul_one]
  have h1 : v - 1 < 2 ^ k * ((v - 1) / 2 ^ k) + 2 ^ k := by
    have := Nat.div_add_mod (v - 1) (2 ^ k)
    have := Nat.mod_lt (v - 1) hpow
    omega
  omega

theorem alignUp_le {v k : ℕ} (hv1 : 1 ≤ v) (hv : v + 2 ^ k ≤ W) :
    alignUp v (2 ^ k) ≤ v + (2 ^ k - 1) := by
  have hpow : (0:ℕ) < 2 ^ k := Nat.pos_pow_of_pos _ (by norm_num)
  rw [alignUp_eq hv1 hv, Nat.mul_add, Nat.mul_one]
  have := Nat.div_add_mod (v - 1) (2 ^ k)
  omega

theorem isAligned_iff {v k : ℕ} : isAligned v (2 ^ k) = true ↔ v % 2 ^ k = 0 := by
  rw [isAligned, beq_iff_eq, Nat.and_pow_two_sub_one_eq_mod]

/-! ### Virtual memory regions (`MemoryRegion` in `src/kernel/src/mem/vm/paging.rs`) -/

/-- `PAGE_SIZE` from `paging.rs`. -/
def PAGE_SIZE : ℕ := 1 <<< 12

/-- `MemoryRegion::new` (`paging.rs`): start rounded down and end rounded up
to the page size.  A region is represented by its `(start, end)` pair. -/
def memRegionNew (start endv : ℕ) : ℕ × ℕ :=
  (alignDown start PAGE_SIZE, alignUp endv PAGE_SIZE)

/-- `MemoryRegion::len` (`paging.rs`): `end - start` on `usize`. -/
def memRegionLen (r : ℕ × ℕ) : ℕ := wsub r.2 r.1

theorem PAGE_SIZE_eq : PAGE_SIZE = 2 ^ 12 := rfl

/-! ### `InitStateLock` (`src/kernel/src/sync/init.rs`) and IRQ mask state
(`src/kernel/src/arch/aarch64/exception/asynchronous.rs`) -/

/-- The machine/kernel context consulted by `InitStateLock::write`:
the `EARLY_INIT_COMPLETE` atomic flag and the DAIF.I bit of the current
exception mask. -/
structure KernelCtx where
  earlyInitComplete : Bool
  daifI : Bool
deriving DecidableEq

/-- `is_masked::<IRQ>()` (`asynchronous.rs` line 88-90): `DAIF.is_set(DAIF::I)`. -/
def isMaskedIRQ (c : KernelCtx) : Bool := c.daifI

/-- `is_local_irq_masked()` (`asynchronous.rs` line 9-11): `!is_masked::<IRQ>()`. -/
def isLocalIrqMasked (c : KernelCtx) : Bool := !(isMaskedIRQ c)

/-- Outcome of a call that may panic. -/
inductive WriteOutcome (R : Type) where
  | panicked
  | ran (r : R)
deriving DecidableEq

/-- `InitStateLock::write` (`init.rs` line 28-41): asserts
`!EARLY_INIT_COMPLETE` and `!is_local_irq_masked()` before running `f`;
a failed `assert!` is a panic. -/
def initStateLockWrite {R : Type} (c : KernelCtx) (f : Unit → R) : WriteOutcome R :=
  if c.earlyInitComplete then .panicked
  else if isLocalIrqMasked c then .panicked
  else .ran (f ())

/-! ### Bump allocator (`src/kernel/src/mem/allocator/bump.rs`) -/

/-- State of `BumpAllocator`: the fixed range `[start, endA)`, the watermark
`next` and the live-allocation count. -/
structure BumpSt where
  start : ℕ
  endA : ℕ
  next : ℕ
  allocations : ℕ
deriving DecidableEq

/-- `BumpAllocator::alloc` (`bump.rs` line 45-59): rounds the watermark up to
the layout's alignment, computes the bumped end, and either fails (null,
state unchanged) when `alloc_end >= end` or returns the aligned pointer and
advances the watermark.  Assumes the allocator is initialised
(`start != 0`; otherwise the source panics). -/
def bumpAlloc (st : BumpSt) (sizeL alignL : ℕ) : Option ℕ × BumpSt :=
  if st.endA ≤ wadd (alignUp st.next alignL) sizeL then (none, st)
  else (some (alignUp st.next alignL),
    { st with next := wadd (alignUp st.next alignL) sizeL,
              allocations := st.allocations + 1 })

/-! ### Claim theorems: region round-trip, init-state lock, bump allocator -/

/-- Mathematical page ceiling used by the specification's wording. -/
def pageCeil (v : ℕ) : ℕ := PAGE_SIZE * ((v + (PAGE_SIZE - 1)) / PAGE_SIZE)

/-- C8 counterexample: for the machine words `s = 0`, `e = 2^64 - 1`, the
constructed region's end is the wrapped value `0`, not `ceil(e, 4096)`, and
its length is smaller than `e - s`; so the claim does not hold for *every*
pair of machine words. -/
theorem memRegionNew_roundTrip_cex :
    (memRegionNew 0 (W - 1)).2 = 0 ∧
    (memRegionNew 0 (W - 1)).2 ≠ pageCeil (W - 1) ∧
    memRegionLen (memRegionNew 0 (W - 1)) < (W - 1) - 0 := by
  refine ⟨by decide, by decide, by decide⟩

/-- C8 (amended): for machine words `s ≤ e` with `e + 4096 ≤ 2^64` (so that
rounding the end up does not overflow the word), `MemoryRegion::new(s, e)`
has start `floor(s, 4096)` and end `ceil(e, 4096)`, both multiples of 4096,
and length at least `e - s`. -/
theorem memRegionNew_roundTrip (s e : ℕ) (hse : s ≤ e) (he : e + PAGE_SIZE ≤ W) :
    (memRegionNew s e).1 = PAGE_SIZE * (s / PAGE_SIZE) ∧
    (memRegionNew s e).2 = pageCeil e ∧
    PAGE_SIZE ∣ (memRegionNew s e).1 ∧
    PAGE_SIZE ∣ (memRegionNew s e).2 ∧
    e - s ≤ memRegionLen (memRegionNew s e) := by
  have hsW : s < W := by
    have : (0:ℕ) < PAGE_SIZE := by decide
    omega
  have hstart : (memRegionNew s e).1 = PAGE_SIZE * (s / PAGE_SIZE) := by
    show alignDown s PAGE_SIZE = _
    rw [PAGE_SIZE_eq] at *
    exact alignDown_eq (by norm_num) hsW
  rcases Nat.eq_zero_or_pos e with he0 | he1
  · subst he0
    have hs0 : s = 0 := Nat.le_zero.mp hse
    subst hs0
    refine ⟨hstart, by decide, hstart ▸ ⟨0 / PAGE_SIZE, rfl⟩, by decide, by decide⟩
  · have hend : (memRegionNew s e).2 = PAGE_SIZE * ((e - 1) / PAGE_SIZE + 1) := by
      show alignUp e PAGE_SIZE = _
      rw [PAGE_SIZE_eq] at *
      exact alignUp_eq he1 he
    have hceil : PAGE_SIZE * ((e - 1) / PAGE_SIZE + 1) = pageCeil e := by
      unfold pageCeil
      congr 1
      have : e + (PAGE_SIZE - 1) = (e - 1) + PAGE_SIZE := by
        have : (0:ℕ) < PAGE_SIZE := by decide
        omega
      rw [this, Nat.add_div_right _ (by decide)]
    have hles : (memRegionNew s e).1 ≤ s := by
      rw [hstart]
      calc PAGE_SIZE * (s / PAGE_SIZE) = s / PAGE_SIZE * PAGE_SIZE := Nat.mul_comm _ _
        _ ≤ s := Nat.div_mul_le_self _ _
    have hgee : e ≤ (memRegionNew s e).2 := by
      show e ≤ alignUp e PAGE_SIZE
      rw [PAGE_SIZE_eq] at *
      exact alignUp_ge he1 he
    have hendW : (memRegionNew s e).2 < W := by
      rw [hend]
      have h2 : (memRegionNew s e).2 ≤ e + (PAGE_SIZE - 1) := by
        show alignUp e PAGE_SIZE ≤ _
        rw [PAGE_SIZE_eq] at *
        exact alignUp_le he1 he
      rw [hend] at h2
      have : (0:ℕ) < PAGE_SIZE := by decide
      omega
    refine ⟨hstart, hend.trans hceil, hstart ▸ ⟨s / PAGE_SIZE, rfl⟩,
      hend ▸ ⟨(e - 1) / PAGE_SIZE + 1, rfl⟩, ?_⟩
    unfold memRegionLen
    rw [wsub_eq (hles.trans (hse.trans hgee)) hendW]
    omega

/-- Witness for C8's amended theorem at `s = 4097`, `e = 8191`. -/
theorem memRegionNew_roundTrip_witness :
    (4097 ≤ 8191 ∧ 8191 + PAGE_SIZE ≤ W) ∧
    ((memRegionNew 4097 8191).1 = PAGE_SIZE * (4097 / PAGE_SIZE) ∧
     (memRegionNew 4097 8191).2 = pageCeil 8191 ∧
     PAGE_SIZE ∣ (memRegionNew 4097 8191).1 ∧
     PAGE_SIZE ∣ (memRegionNew 4097 8191).2 ∧
     8191 - 4097 ≤ memRegionLen (memRegionNew 4097 8191)) :=
  ⟨⟨by decide, by decide⟩, memRegionNew_roundTrip 4097 8191 (by decide) (by decide)⟩

/-- C10: `InitStateLock::write` panics exactly when `EARLY_INIT_COMPLETE` is
set or the DAIF.I bit is clear at entry; `is_local_irq_masked` returns true
exactly when DAIF.I is clear; hence before early init is sealed, `write`
runs its closure only when IRQs are masked (DAIF.I set). -/
theorem initStateLockWrite_requires_irqs_masked {R : Type} (c : KernelCtx) (f : Unit → R) :
    (isLocalIrqMasked c = true ↔ c.daifI = false) ∧
    (initStateLockWrite c f = WriteOutcome.panicked ↔
      (c.earlyInitComplete = true ∨ c.daifI = false)) ∧
    (initStateLockWrite c f = WriteOutcome.ran (f ()) ↔
      (c.earlyInitComplete = false ∧ c.daifI = true)) := by
  obtain ⟨ei, di⟩ := c
  cases ei <;> cases di <;>
    simp [initStateLockWrite, isLocalIrqMasked, isMaskedIRQ]

/-- C9: on an initialised bump allocator, `alloc` returns the watermark
rounded up to the layout's alignment (a power of two) and advances the
watermark by the layout size beyond that pointer; when the request does not
fit it returns null and leaves the watermark (and the whole state)
unchanged.  The hypotheses bound the inputs to the machine word so that the
wrapping arithmetic of the source coincides with the claim's arithmetic. -/
theorem bumpAlloc_spec (st : BumpSt) (sizeL k : ℕ)
    (hn1 : 1 ≤ st.next) (hnW : st.next + 2 ^ k ≤ W)
    (hno : 2 ^ k * ((st.next - 1) / 2 ^ k + 1) + sizeL < W) :
    ((bumpAlloc st sizeL (2 ^ k)).1 = none ↔
      st.endA ≤ 2 ^ k * ((st.next - 1) / 2 ^ k + 1) + sizeL) ∧
    ((bumpAlloc st sizeL (2 ^ k)).1 = none → (bumpAlloc st sizeL (2 ^ k)).2 = st) ∧
    (2 ^ k * ((st.next - 1) / 2 ^ k + 1) + sizeL < st.endA →
      (bumpAlloc st sizeL (2 ^ k)).1 = some (2 ^ k * ((st.next - 1) / 2 ^ k + 1)) ∧
      (bumpAlloc st sizeL (2 ^ k)).2.next =
        2 ^ k * ((st.next - 1) / 2 ^ k + 1) + sizeL ∧
      (bumpAlloc st sizeL (2 ^ k)).2.start = st.start ∧
      (bumpAlloc st sizeL (2 ^ k)).2.endA = st.endA) := by
  have hA : alignUp st.next (2 ^ k) = 2 ^ k * ((st.next - 1) / 2 ^ k + 1) :=
    alignUp_eq hn1 hnW
  unfold bumpAlloc
  rw [hA, wadd_eq hno]
  by_cases hc : st.endA ≤ 2 ^ k * ((st.next - 1) / 2 ^ k + 1) + sizeL
  · simp [hc]
  · simp [hc]

/-- Witness for C9 at a concrete allocator state and layout. -/
theorem bumpAlloc_spec_witness :
    (1 ≤ (BumpSt.mk 4096 12288 4097 0).next ∧
     (BumpSt.mk 4096 12288 4097 0).next + 2 ^ 3 ≤ W ∧
     2 ^ 3 * (((BumpSt.mk 4096 12288 4097 0).next - 1) / 2 ^ 3 + 1) + 16 < W) ∧
    ((bumpAlloc (BumpSt.mk 4096 12288 4097 0) 16 (2 ^ 3)).1 = none ↔
      (BumpSt.mk 4096 12288 4097 0).endA ≤
        2 ^ 3 * (((BumpSt.mk 4096 12288 4097 0).next - 1) / 2 ^ 3 + 1) + 16) :=
  ⟨⟨by decide, by decide, by decide⟩,
    (bumpAlloc_spec (BumpSt.mk 4096 12288 4097 0) 16 3 (by decide) (by decide)
      (by decide)).1⟩

/-! ### Physical page allocator (`src/kernel/src/mem/allocator/physical_page.rs`)

The free list of `ListNode`s is embedded as a list of `(start, size)` pairs
of direct-mapped virtual addresses, in list order from the head.  `ListNode`
is `{ next: Option<&'static mut ListNode>, size: usize }`: 16 bytes with
alignment 8 on the 64-bit target. -/

/-- `mem::size_of::<ListNode>()`. -/
def LIST_NODE_SIZE : ℕ := 16

/-- `mem::align_of::<ListNode>()`. -/
def LIST_NODE_ALIGN : ℕ := 8

/-- `PhysicalPageAllocator::alloc_from_region` (`physical_page.rs` line
82-100): page-align the region start upward, check that `size` more bytes
fit (`checked_add` fails on word overflow), and require the excess after the
carved extent to be zero or at least a node's size. -/
def ppaAllocFromRegion (startAddr size reqSize : ℕ) : Option ℕ :=
  let allocStart := alignUp startAddr PAGE_SIZE
  if W ≤ allocStart + reqSize then none
  else if wadd startAddr size < allocStart + reqSize then none
  else
    let excess := wadd startAddr size - (allocStart + reqSize)
    if 0 < excess ∧ excess < LIST_NODE_SIZE then none
    else some allocStart

/-- `PhysicalPageAllocator::find_region` (`physical_page.rs` line 58-74):
scan the free list from the head; the first region that satisfies
`alloc_from_region` is removed whole from the list and its aligned start is
returned. -/
def ppaFindRegion : List (ℕ × ℕ) → ℕ → Option (ℕ × List (ℕ × ℕ))
  | [], _ => none
  | r :: rest, req =>
    match ppaAllocFromRegion r.1 r.2 req with
    | some a => some (a, rest)
    | none =>
      match ppaFindRegion rest req with
      | some (a, l) => some (a, r :: l)
      | none => none

/-- `PhysicalPageAllocator::allocate` (`physical_page.rs` line 52-54):
`find_region` and translate the virtual start back to a physical address by
subtracting the direct-map offset `D`. -/
def ppaAllocate (D : ℕ) (lst : List (ℕ × ℕ)) (req : ℕ) :
    Option ℕ × List (ℕ × ℕ) :=
  match ppaFindRegion lst req with
  | some (a, l) => (some (wsub a D), l)
  | none => (none, lst)

/-- `PhysicalPageAllocator::add_free_region` (`physical_page.rs` line
38-48): assert alignment and minimum size, then prepend the node.  A failed
assertion is a panic, modelled as `none`. -/
def ppaAddFreeRegion (addr size : ℕ) (lst : List (ℕ × ℕ)) :
    Option (List (ℕ × ℕ)) :=
  if alignUp addr LIST_NODE_ALIGN = addr ∧ LIST_NODE_SIZE ≤ size then
    some ((addr, size) :: lst)
  else none

/-- `PhysicalPageAllocator::add_heap_region` (`physical_page.rs` line
33-35) converts the physical start to its direct-mapped virtual address.
The `From<PhysicalAddress> for VirtualAddress` impl is not under `src/`.
Modelled from the spec: (§3) for any physical address `p` in the direct-map
range, `virt(p) = p + D`. -/
def ppaAddHeapRegion (D phys size : ℕ) (lst : List (ℕ × ℕ)) :
    Option (List (ℕ × ℕ)) :=
  ppaAddFreeRegion (wadd phys D) size lst

/-- A call in a physical-page-allocator history. -/
inductive PpaOp where
  | addRegion (phys size : ℕ)
  | alloc (size : ℕ)

/-- Run a sequence of `add_region`/`allocate` calls, tracking the free list,
the total bytes handed out by successful `allocate` calls, and the total
bytes added by `add_region` calls.  `none` when an `add_region` assertion
panics. -/
def ppaRun (D : ℕ) : List PpaOp → List (ℕ × ℕ) × ℕ × ℕ →
    Option (List (ℕ × ℕ) × ℕ × ℕ)
  | [], s => some s
  | PpaOp.addRegion p z :: ops, (lst, al, ad) =>
    match ppaAddHeapRegion D p z lst with
    | some lst2 => ppaRun D ops (lst2, al, ad + z)
    | none => none
  | PpaOp.alloc z :: ops, (lst, al, ad) =>
    match ppaAllocate D lst z with
    | (some _, lst2) => ppaRun D ops (lst2, al + z, ad)
    | (none, lst2) => ppaRun D ops (lst2, al, ad)

/-- Sum of free bytes reachable from the list head. -/
def ppaFreeSum (lst : List (ℕ × ℕ)) : ℕ := (lst.map Prod.snd).sum

/-- C1: running `add_region(0x1000, 0x2000 bytes)` followed by a successful
`allocate(0x1000)` leaves an empty free list: the 0x1000 bytes of excess at
the end of the carved region are discarded (`find_region` removes the whole
node and never re-inserts the remainder), so reachable free bytes (0) plus
allocated bytes (0x1000) is not the added total (0x2000).  Direct-map offset
`D = 0` for concreteness. -/
theorem ppaRun_conservation_fails :
    ppaRun 0 [PpaOp.addRegion 4096 8192, PpaOp.alloc 4096] ([], 0, 0) =
      some ([], 4096, 8192) ∧
    ppaFreeSum [] + 4096 ≠ 8192 := by
  refine ⟨by decide, by decide⟩

/-- The claim's qualification predicate for a free region (C5): a
page-aligned sub-extent of exactly `req` bytes fits, and the leftover after
the extent's end is zero or at least a node's size. -/
def ppaQualifies (req : ℕ) (n : ℕ × ℕ) : Bool :=
  decide (alignUp n.1 PAGE_SIZE + req ≤ n.1 + n.2) &&
  (decide (n.1 + n.2 - (alignUp n.1 PAGE_SIZE + req) = 0) ||
   decide (LIST_NODE_SIZE ≤ n.1 + n.2 - (alignUp n.1 PAGE_SIZE + req)))

/-- Well-formedness of a free-list node used by the claims: nonzero start,
page-rounding and the node extent stay inside the machine word, and the node
lies above the direct-map offset `D`. -/
def ppaWfNode (D : ℕ) (n : ℕ × ℕ) : Prop :=
  1 ≤ n.1 ∧ n.1 + PAGE_SIZE ≤ W ∧ n.1 + n.2 < W ∧ D ≤ n.1

instance (D : ℕ) (n : ℕ × ℕ) : Decidable (ppaWfNode D n) := by
  unfold ppaWfNode
  infer_instance

theorem ppaAllocFromRegion_eq_qualifies {D : ℕ} (req : ℕ) (n : ℕ × ℕ)
    (hwf : ppaWfNode D n) :
    ppaAllocFromRegion n.1 n.2 req =
      if ppaQualifies req n then some (alignUp n.1 PAGE_SIZE) else none := by
  obtain ⟨h1, h2, h3, _⟩ := hwf
  have hend : wadd n.1 n.2 = n.1 + n.2 := wadd_eq h3
  unfold ppaAllocFromRegion ppaQualifies
  rw [hend]
  by_cases hov : W ≤ alignUp n.1 PAGE_SIZE + req
  · rw [if_pos hov]
    have hfit : ¬ (alignUp n.1 PAGE_SIZE + req ≤ n.1 + n.2) := by omega
    simp [hfit]
  · rw [if_neg hov]
    by_cases hns : n.1 + n.2 < alignUp n.1 PAGE_SIZE + req
    · rw [if_pos hns]
      have hfit : ¬ (alignUp n.1 PAGE_SIZE + req ≤ n.1 + n.2) := by omega
      simp [hfit]
    · rw [if_neg hns]
      have hfit : alignUp n.1 PAGE_SIZE + req ≤ n.1 + n.2 := by omega
      by_cases hex : 0 < n.1 + n.2 - (alignUp n.1 PAGE_SIZE + req) ∧
          n.1 + n.2 - (alignUp n.1 PAGE_SIZE + req) < LIST_NODE_SIZE
      · rw [if_pos hex]
        have hq : ¬ (n.1 + n.2 - (alignUp n.1 PAGE_SIZE + req) = 0) := by omega
        have hr : ¬ (LIST_NODE_SIZE ≤ n.1 + n.2 - (alignUp n.1 PAGE_SIZE + req)) := by
          omega
        simp [hfit, hq, hr]
      · rw [if_neg hex]
        have hor : n.1 + n.2 - (alignUp n.1 PAGE_SIZE + req) = 0 ∨
            LIST_NODE_SIZE ≤ n.1 + n.2 - (alignUp n.1 PAGE_SIZE + req) := by omega
        rcases hor with h | h <;> simp [hfit, h]

theorem ppaFindRegion_eq_findFirst (req : ℕ) (D : ℕ) (lst : List (ℕ × ℕ))
    (hwf : ∀ n ∈ lst, ppaWfNode D n) :
    (ppaFindRegion lst req).map Prod.fst =
      (lst.find? (ppaQualifies req)).map (fun n => alignUp n.1 PAGE_SIZE) := by
  induction lst with
  | nil => rfl
  | cons r rest ih =>
    have hr := hwf r (List.mem_cons_self _ _)
    have hrest : ∀ n ∈ rest, ppaWfNode D n := fun n hn => hwf n (List.mem_cons_of_mem _ hn)
    show (match ppaAllocFromRegion r.1 r.2 req with
      | some a => some (a, rest)
      | none => match ppaFindRegion rest req with
        | some (a, l) => some (a, r :: l)
        | none => none).map Prod.fst = _
    rw [ppaAllocFromRegion_eq_qualifies req r hr]
    by_cases hq : ppaQualifies req r
    · rw [List.find?_cons_of_pos _ hq]
      simp [hq]
    · rw [List.find?_cons_of_neg _ (by simpa using hq)]
      rw [if_neg (by simpa using hq)]
      cases h : ppaFindRegion rest req with
      | none =>
        have := ih hrest
        rw [h] at this
        simp at this
        simp [this.symm]
      | some al =>
        have := ih hrest
        rw [h] at this
        obtain ⟨a, l⟩ := al
        simp at this
        simp [← this]

/-- C5: for a page-multiple request, `allocate` returns (as a physical
address) the page-aligned start of the *first* region in list order into
which a page-aligned extent of exactly `size` bytes fits leaving a trailing
excess that is zero or at least `sizeof(ListNode)`; regions with a nonzero
smaller excess are skipped, and if no region qualifies the result is `none`.
The returned physical address is page-aligned. -/
theorem ppaAllocate_firstFit (D req : ℕ) (lst : List (ℕ × ℕ))
    (hreq : req % PAGE_SIZE = 0) (hD : D % PAGE_SIZE = 0)
    (hwf : ∀ n ∈ lst, ppaWfNode D n) :
    (ppaAllocate D lst req).1 =
      (lst.find? (ppaQualifies req)).map (fun n => alignUp n.1 PAGE_SIZE - D) ∧
    (∀ p, (ppaAllocate D lst req).1 = some p → p % PAGE_SIZE = 0) := by
  have hfind := ppaFindRegion_eq_findFirst req D lst hwf
  have hmain : (ppaAllocate D lst req).1 =
      (lst.find? (ppaQualifies req)).map (fun n => alignUp n.1 PAGE_SIZE - D) := by
    unfold ppaAllocate
    cases h : ppaFindRegion lst req with
    | none =>
      rw [h] at hfind
      cases hf : lst.find? (ppaQualifies req) with
      | none => simp
      | some n => rw [hf] at hfind; simp at hfind
    | some al =>
      obtain ⟨a, l⟩ := al
      rw [h] at hfind
      cases hf : lst.find? (ppaQualifies req) with
      | none => rw [hf] at hfind; simp at hfind
      | some n =>
        rw [hf] at hfind
        simp at hfind
        have hn : n ∈ lst := List.mem_of_find?_eq_some hf
        obtain ⟨h1, h2, h3, h4⟩ := hwf n hn
        have hAlt : alignUp n.1 PAGE_SIZE < W := by
          have := alignUp_le (k := 12) h1 (by rw [← PAGE_SIZE_eq]; exact h2)
          rw [← PAGE_SIZE_eq] at this
          have hp : (0:ℕ) < PAGE_SIZE := by decide
          omega
        have hDle : D ≤ alignUp n.1 PAGE_SIZE := by
          have := alignUp_ge (k := 12) h1 (by rw [← PAGE_SIZE_eq]; exact h2)
          rw [← PAGE_SIZE_eq] at this
          omega
        simp [hfind, wsub_eq hDle hAlt]
  refine ⟨hmain, fun p hp => ?_⟩
  rw [hmain] at hp
  cases hf : lst.find? (ppaQualifies req) with
  | none => rw [hf] at hp; simp at hp
  | some n =>
    rw [hf] at hp
    simp at hp
    have hn : n ∈ lst := List.mem_of_find?_eq_some hf
    obtain ⟨h1, h2, h3, h4⟩ := hwf n hn
    have hdvdA : PAGE_SIZE ∣ alignUp n.1 PAGE_SIZE := by
      rw [PAGE_SIZE_eq] at *
      exact alignUp_dvd h1 h2
    have hdvdD : PAGE_SIZE ∣ D := Nat.dvd_of_mod_eq_zero hD
    rw [← hp]
    exact Nat.mod_eq_zero_of_dvd (Nat.dvd_sub' hdvdA hdvdD)

/-- Witness for C5 at `D = 0x2000`, one free node `(0x3000, 0x2000)` and a
one-page request. -/
theorem ppaAllocate_firstFit_witness :
    (4096 % PAGE_SIZE = 0 ∧ 8192 % PAGE_SIZE = 0 ∧
      (∀ n ∈ [((12288:ℕ), (8192:ℕ))], ppaWfNode 8192 n)) ∧
    (ppaAllocate 8192 [(12288, 8192)] 4096).1 =
      ([((12288:ℕ), (8192:ℕ))].find? (ppaQualifies 4096)).map
        (fun n => alignUp n.1 PAGE_SIZE - 8192) :=
  ⟨⟨by decide, by decide, by decide⟩,
    (ppaAllocate_firstFit 8192 4096 [(12288, 8192)] (by decide) (by decide)
      (by decide)).1⟩

/-! ### Linked-list heap allocator (`src/kernel/src/mem/allocator/linked_list.rs`)

Same in-place free-list discipline as the physical page allocator, but over
virtual addresses with a caller-supplied alignment, and — unlike the PPA —
`alloc` re-inserts the trailing remainder of a carved region as a new free
node. -/

/-- `Layout::pad_to_align` (Rust core): round the size up to a multiple of
the (power-of-two) alignment. -/
def padToAlign (size a : ℕ) : ℕ := (size + (a - 1)) &&& (W - a)

/-- `LinkedListAllocator::size_align` (`linked_list.rs` line 170-177):
align the layout to the node alignment, pad, and take at least a node's
size. -/
def llaSizeAlign (size align : ℕ) : ℕ × ℕ :=
  (max (padToAlign size (max align LIST_NODE_ALIGN)) LIST_NODE_SIZE,
   max align LIST_NODE_ALIGN)

/-- `LinkedListAllocator::alloc_from_region` (`linked_list.rs` line 77-95). -/
def llaAllocFromRegion (startAddr size reqSize align : ℕ) : Option ℕ :=
  let allocStart := alignUp startAddr align
  if W ≤ allocStart + reqSize then none
  else if wadd startAddr size < allocStart + reqSize then none
  else
    let excess := wadd startAddr size - (allocStart + reqSize)
    if 0 < excess ∧ excess < LIST_NODE_SIZE then none
    else some allocStart

/-- `LinkedListAllocator::find_region` (`linked_list.rs` line 56-73):
returns the removed node, its aligned allocation start, and the remaining
list. -/
def llaFindRegion : List (ℕ × ℕ) → ℕ → ℕ → Option ((ℕ × ℕ) × ℕ × List (ℕ × ℕ))
  | [], _, _ => none
  | r :: rest, req, al =>
    match llaAllocFromRegion r.1 r.2 req al with
    | some a => some (r, a, rest)
    | none =>
      match llaFindRegion rest req al with
      | some (n, a, l) => some (n, a, r :: l)
      | none => none

/-- `LinkedListAllocator::alloc` (`linked_list.rs` line 113-126): adjust the
layout, find and remove the first fitting region, and re-insert the trailing
excess (if any) at the head of the list via `add_free_region` (whose
assertions hold on this path: the excess is at least a node's size by the
`alloc_from_region` check, and the excess start is 8-aligned). -/
def llaAlloc (lst : List (ℕ × ℕ)) (size align : ℕ) : Option ℕ × List (ℕ × ℕ) :=
  match llaFindRegion lst (llaSizeAlign size align).1 (llaSizeAlign size align).2 with
  | some (n, a, rest) =>
    (some a,
     if 0 < wadd n.1 n.2 - (a + (llaSizeAlign size align).1) then
       (a + (llaSizeAlign size align).1,
        wadd n.1 n.2 - (a + (llaSizeAlign size align).1)) :: rest
     else rest)
  | none => (none, lst)

/-- The claim's qualification predicate for a heap region (C6). -/
def llaQualifies (req al : ℕ) (n : ℕ × ℕ) : Bool :=
  decide (alignUp n.1 al + req ≤ n.1 + n.2) &&
  (decide (n.1 + n.2 - (alignUp n.1 al + req) = 0) ||
   decide (LIST_NODE_SIZE ≤ n.1 + n.2 - (alignUp n.1 al + req)))

/-- Well-formedness of a heap free-list node for alignment `a`. -/
def llaWfNode (a : ℕ) (n : ℕ × ℕ) : Prop :=
  1 ≤ n.1 ∧ n.1 + a ≤ W ∧ n.1 + n.2 < W

instance (a : ℕ) (n : ℕ × ℕ) : Decidable (llaWfNode a n) := by
  unfold llaWfNode
  infer_instance

theorem llaAllocFromRegion_eq_qualifies {j : ℕ} (req : ℕ) (n : ℕ × ℕ)
    (hwf : llaWfNode (2 ^ j) n) :
    llaAllocFromRegion n.1 n.2 req (2 ^ j) =
      if llaQualifies req (2 ^ j) n then some (alignUp n.1 (2 ^ j)) else none := by
  obtain ⟨h1, h2, h3⟩ := hwf
  have hend : wadd n.1 n.2 = n.1 + n.2 := wadd_eq h3
  unfold llaAllocFromRegion llaQualifies
  rw [hend]
  by_cases hov : W ≤ alignUp n.1 (2 ^ j) + req
  · rw [if_pos hov]
    have hfit : ¬ (alignUp n.1 (2 ^ j) + req ≤ n.1 + n.2) := by omega
    simp [hfit]
  · rw [if_neg hov]
    by_cases hns : n.1 + n.2 < alignUp n.1 (2 ^ j) + req
    · rw [if_pos hns]
      have hfit : ¬ (alignUp n.1 (2 ^ j) + req ≤ n.1 + n.2) := by omega
      simp [hfit]
    · rw [if_neg hns]
      have hfit : alignUp n.1 (2 ^ j) + req ≤ n.1 + n.2 := by omega
      by_cases hex : 0 < n.1 + n.2 - (alignUp n.1 (2 ^ j) + req) ∧
          n.1 + n.2 - (alignUp n.1 (2 ^ j) + req) < LIST_NODE_SIZE
      · rw [if_pos hex]
        have hq : ¬ (n.1 + n.2 - (alignUp n.1 (2 ^ j) + req) = 0) := by omega
        have hr : ¬ (LIST_NODE_SIZE ≤ n.1 + n.2 - (alignUp n.1 (2 ^ j) + req)) := by
          omega
        simp [hfit, hq, hr]
      · rw [if_neg hex]
        have hor : n.1 + n.2 - (alignUp n.1 (2 ^ j) + req) = 0 ∨
            LIST_NODE_SIZE ≤ n.1 + n.2 - (alignUp n.1 (2 ^ j) + req) := by omega
        rcases hor with h | h <;> simp [hfit, h]

theorem llaFindRegion_eq_findFirst {j : ℕ} (req : ℕ) (lst : List (ℕ × ℕ))
    (hwf : ∀ n ∈ lst, llaWfNode (2 ^ j) n) :
    llaFindRegion lst req (2 ^ j) =
      (lst.find? (llaQualifies req (2 ^ j))).map
        (fun n => (n, alignUp n.1 (2 ^ j), lst.eraseP (llaQualifies req (2 ^ j)))) := by
  induction lst with
  | nil => rfl
  | cons r rest ih =>
    have hr := hwf r (List.mem_cons_self _ _)
    have hrest : ∀ n ∈ rest, llaWfNode (2 ^ j) n :=
      fun n hn => hwf n (List.mem_cons_of_mem _ hn)
    show (match llaAllocFromRegion r.1 r.2 req (2 ^ j) with
      | some a => some (r, a, rest)
      | none =>
        match llaFindRegion rest req (2 ^ j) with
        | some (n, a, l) => some (n, a, r :: l)
        | none => none) = _
    rw [llaAllocFromRegion_eq_qualifies req r hr]
    by_cases hq : llaQualifies req (2 ^ j) r
    · rw [List.find?_cons_of_pos _ hq, List.eraseP_cons_of_pos hq]
      simp [hq]
    · have hq2 : llaQualifies req (2 ^ j) r = false := by simpa using hq
      rw [if_neg (by simpa using hq), ih hrest]
      cases hf : rest.find? (llaQualifies req (2 ^ j)) with
      | none => simp [hf, hq2]
      | some n => simp [hf, hq2]

theorem max_pow_two_eight (k : ℕ) : max (2 ^ k) LIST_NODE_ALIGN = 2 ^ max k 3 := by
  have h8 : LIST_NODE_ALIGN = 2 ^ 3 := rfl
  rw [h8]
  rcases le_total k 3 with h | h
  · rw [max_eq_right (Nat.pow_le_pow_right (by norm_num) h), max_eq_right h]
  · rw [max_eq_left (Nat.pow_le_pow_right (by norm_num) h), max_eq_left h]

theorem padToAlign_eq {size j : ℕ} (h : size + 2 ^ j ≤ W) :
    padToAlign size (2 ^ j) = 2 ^ j * ((size + (2 ^ j - 1)) / 2 ^ j) := by
  have hpow : (0:ℕ) < 2 ^ j := Nat.pos_pow_of_pos _ (by norm_num)
  have hj : j ≤ 64 := by
    by_contra hj
    have : 2 ^ 64 < 2 ^ j := Nat.pow_lt_pow_right (by norm_num) (by omega)
    unfold W at h
    omega
  have hv : size + (2 ^ j - 1) < W := by omega
  exact alignDown_eq hj hv

/-- C6: `LinkedListAllocator::alloc` adjusts the layout (size padded to a
multiple of `max(layout.align, node alignment)` and at least a node's size),
then returns a pointer to the first region in list order whose aligned start
leaves the adjusted size before the region's end with trailing remainder
zero or at least a node's size; on success that node is removed and the
nonzero trailing remainder is re-inserted at the head as a new free node;
when no region fits the result is null and the list is unchanged. -/
theorem llaAlloc_firstFit (size align k : ℕ) (lst : List (ℕ × ℕ))
    (halign : align = 2 ^ k)
    (hsize : size + max align LIST_NODE_ALIGN ≤ W)
    (hwf : ∀ n ∈ lst, llaWfNode (max align LIST_NODE_ALIGN) n) :
    (llaSizeAlign size align).1 =
      max (max align LIST_NODE_ALIGN *
        ((size + (max align LIST_NODE_ALIGN - 1)) / max align LIST_NODE_ALIGN))
        LIST_NODE_SIZE ∧
    (llaSizeAlign size align).2 = max align LIST_NODE_ALIGN ∧
    (llaAlloc lst size align).1 =
      (lst.find? (llaQualifies (llaSizeAlign size align).1
          (llaSizeAlign size align).2)).map
        (fun n => alignUp n.1 (llaSizeAlign size align).2) ∧
    (lst.find? (llaQualifies (llaSizeAlign size align).1
        (llaSizeAlign size align).2) = none →
      llaAlloc lst size align = (none, lst)) ∧
    (∀ n, lst.find? (llaQualifies (llaSizeAlign size align).1
        (llaSizeAlign size align).2) = some n →
      (llaAlloc lst size align).2 =
        if 0 < n.1 + n.2 -
            (alignUp n.1 (llaSizeAlign size align).2 + (llaSizeAlign size align).1) then
          (alignUp n.1 (llaSizeAlign size align).2 + (llaSizeAlign size align).1,
           n.1 + n.2 -
             (alignUp n.1 (llaSizeAlign size align).2 + (llaSizeAlign size align).1)) ::
            lst.eraseP (llaQualifies (llaSizeAlign size align).1
              (llaSizeAlign size align).2)
        else lst.eraseP (llaQualifies (llaSizeAlign size align).1
          (llaSizeAlign size align).2)) := by
  subst halign
  have hA : max (2 ^ k) LIST_NODE_ALIGN = 2 ^ max k 3 := max_pow_two_eight k
  have hA2 : (llaSizeAlign size (2 ^ k)).2 = 2 ^ max k 3 := hA
  rw [hA] at hsize hwf
  have hfr := llaFindRegion_eq_findFirst (j := max k 3)
    ((llaSizeAlign size (2 ^ k)).1) lst hwf
  refine ⟨?_, rfl, ?_, ?_, ?_⟩
  · show max (padToAlign size (max (2 ^ k) LIST_NODE_ALIGN)) LIST_NODE_SIZE = _
    rw [hA, padToAlign_eq hsize]
  · unfold llaAlloc
    rw [hA2, hfr]
    cases hf : lst.find? (llaQualifies (llaSizeAlign size (2 ^ k)).1 (2 ^ max k 3)) with
    | none => simp
    | some n => simp
  · intro hnone
    unfold llaAlloc
    rw [hA2] at hnone
    rw [hA2, hfr, hnone]
    rfl
  · intro n hn
    have hmem : n ∈ lst := List.mem_of_find?_eq_some hn
    have hwfn := hwf n hmem
    have hend : wadd n.1 n.2 = n.1 + n.2 := wadd_eq hwfn.2.2
    unfold llaAlloc
    rw [hA2] at hn
    rw [hA2, hfr, hn]
    simp only [Option.map_some']
    rw [hend]

/-- Witness for C6 at layout `{size = 100, align = 8}` and one free node
`(0x1000, 0x2000 bytes)`. -/
theorem llaAlloc_firstFit_witness :
    ((8:ℕ) = 2 ^ 3 ∧ 100 + max 8 LIST_NODE_ALIGN ≤ W ∧
      (∀ n ∈ [((4096:ℕ), (8192:ℕ))], llaWfNode (max 8 LIST_NODE_ALIGN) n)) ∧
    (llaAlloc [(4096, 8192)] 100 8).1 =
      ([((4096:ℕ), (8192:ℕ))].find? (llaQualifies (llaSizeAlign 100 8).1
          (llaSizeAlign 100 8).2)).map
        (fun n => alignUp n.1 (llaSizeAlign 100 8).2) :=
  ⟨⟨by decide, by decide, by decide⟩,
    (llaAlloc_firstFit 100 8 3 [(4096, 8192)] rfl (by decide) (by decide)).2.2.1⟩

/-! ### Virtual memory manager `kernel_alloc` (`src/kernel/src/mem.rs`) -/

/-- Modelled from the spec: the `From<PhysicalAddress> for VirtualAddress`
conversion used by `alloc_start.into()` is not present under `src/`; per
spec §3, the direct map satisfies `virt(p) = p + D`. -/
def physToVirt (D p : ℕ) : ℕ := wadd p D

/-- The `VirtualMemoryManagerInner` state consulted by `kernel_alloc`:
the physical allocator's free list, whether the `kernel_page_table`
`OnceCell` has been set (bootstrap step 5), and the
`use_kernel_heap_addresses` flag. -/
structure VMSt where
  ppa : List (ℕ × ℕ)
  kptSet : Bool
  useKernelHeapAddresses : Bool
deriving DecidableEq

/-- The panics `kernel_alloc` can raise. -/
inductive KernelPanic where
  | beforePageTable
  | outOfMemory
deriving DecidableEq

/-- `VirtualMemoryManagerInner::kernel_alloc_unchecked` (`mem.rs` line
504-511): round the size up to a page multiple, allocate from the physical
page allocator, panic on exhaustion. -/
def kernelAllocUnchecked (D : ℕ) (st : VMSt) (size : ℕ) :
    Except KernelPanic ((ℕ × ℕ) × VMSt) :=
  match ppaAllocate D st.ppa (alignUp size PAGE_SIZE) with
  | (some p, lst2) => .ok ((p, alignUp size PAGE_SIZE), { st with ppa := lst2 })
  | (none, _) => .error .outOfMemory

/-- `VirtualMemoryManagerInner::kernel_alloc` (`mem.rs` line 476-493):
panic if the kernel page table `OnceCell` is unset; otherwise allocate and
return the rounded size together with `alloc_phys + kernel_heap_start` when
`use_kernel_heap_addresses` is set, else the direct-mapped virtual address. -/
def kernelAlloc (D heapStart : ℕ) (st : VMSt) (size : ℕ) :
    Except KernelPanic ((ℕ × ℕ) × VMSt) :=
  if st.kptSet then
    match kernelAllocUnchecked D st size with
    | .ok ((p, sz), st2) =>
      .ok ((if st2.useKernelHeapAddresses then wadd p heapStart else physToVirt D p, sz),
        st2)
    | .error e => .error e
  else .error .beforePageTable

/-- Wrap-around-aware page rounding: for every machine word `v`, the
source's `align_up(v, PAGE_SIZE)` equals `ceil(v / 4096) * 4096`
reduced modulo `2^64`. -/
theorem alignUp_mod_eq {v k : ℕ} (hk : k ≤ 64) (hv : v < W) :
    alignUp v (2 ^ k) = (2 ^ k * ((v + (2 ^ k - 1)) / 2 ^ k)) % W := by
  have hpow : (0:ℕ) < 2 ^ k := Nat.pos_pow_of_pos _ (by norm_num)
  rcases Nat.eq_zero_or_pos v with hv0 | hv1
  · subst hv0
    have h1 : wsub 0 1 = W - 1 := by
      unfold wsub
      rw [one_mod_W, Nat.zero_add, Nat.mod_eq_of_lt (by unfold W; omega)]
    have h2 : (W - 1) ||| (2 ^ k - 1) = W - 1 := by
      rw [Nat.lor_comm]
      show (2 ^ k - 1) ||| (2 ^ 64 - 1) = 2 ^ 64 - 1
      refine lor_two_pow_sub_one_of_lt ?_
      have hle : 2 ^ k ≤ 2 ^ 64 := Nat.pow_le_pow_right (by norm_num) hk
      omega
    rw [alignUp, h1, h2]
    unfold wadd
    rw [show W - 1 + 1 = W by unfold W; omega, Nat.mod_self]
    rw [Nat.zero_add, Nat.div_eq_of_lt (by omega), Nat.mul_zero, Nat.zero_mod]
  · have h1 : wsub v 1 = v - 1 := wsub_eq hv1 hv
    rw [alignUp, h1]
    have hsplit : v - 1 = 2 ^ k * ((v - 1) / 2 ^ k) + (v - 1) % 2 ^ k :=
      (Nat.div_add_mod (v - 1) (2 ^ k)).symm
    conv_lhs => rw [hsplit]
    rw [mul_add_lor_two_pow_sub_one (Nat.mod_lt _ hpow)]
    unfold wadd
    have hle : 2 ^ k * ((v - 1) / 2 ^ k) + (2 ^ k - 1) + 1 =
        2 ^ k * ((v - 1) / 2 ^ k + 1) := by
      rw [Nat.mul_add, Nat.mul_one]
      omega
    rw [hle]
    have hnum : (v + (2 ^ k - 1)) / 2 ^ k = (v - 1) / 2 ^ k + 1 := by
      rw [show v + (2 ^ k - 1) = (v - 1) + 2 ^ k by omega, Nat.add_div_right _ hpow]
    rw [hnum]

/-- C7: `kernel_alloc(size)` panics when the kernel-page-table `OnceCell`
is unset; otherwise it requests `ceil(size/4096)*4096` bytes (as a machine
word) from the physical page allocator and, on success, returns that
rounded size and a virtual address equal to `alloc_phys + kernel_heap_start`
in main (kernel-heap-address) mode and the direct-mapped virtual address of
`alloc_phys` otherwise. -/
theorem kernelAlloc_spec (D heapStart size : ℕ) (st : VMSt) (hsW : size < W) :
    (st.kptSet = false →
      kernelAlloc D heapStart st size = .error KernelPanic.beforePageTable) ∧
    (st.kptSet = true →
      (∀ p lst2,
        ppaAllocate D st.ppa ((PAGE_SIZE * ((size + (PAGE_SIZE - 1)) / PAGE_SIZE)) % W) =
          (some p, lst2) →
        kernelAlloc D heapStart st size =
          .ok ((if st.useKernelHeapAddresses then wadd p heapStart else physToVirt D p,
                (PAGE_SIZE * ((size + (PAGE_SIZE - 1)) / PAGE_SIZE)) % W),
            { st with ppa := lst2 })) ∧
      ((ppaAllocate D st.ppa
          ((PAGE_SIZE * ((size + (PAGE_SIZE - 1)) / PAGE_SIZE)) % W)).1 = none →
        kernelAlloc D heapStart st size = .error KernelPanic.outOfMemory)) := by
  have halign : alignUp size PAGE_SIZE =
      (PAGE_SIZE * ((size + (PAGE_SIZE - 1)) / PAGE_SIZE)) % W := by
    rw [PAGE_SIZE_eq]
    exact alignUp_mod_eq (by norm_num) hsW
  obtain ⟨ppa0, kpt0, uh0⟩ := st
  refine ⟨fun h => ?_, fun hk => ⟨fun p lst2 hp => ?_, fun hnone => ?_⟩⟩
  · simp only at h
    unfold kernelAlloc
    rw [h]
    rfl
  · simp only at hk hp ⊢
    unfold kernelAlloc kernelAllocUnchecked
    rw [hk, halign]
    dsimp only
    rw [hp]
    rfl
  · simp only at hk hnone ⊢
    unfold kernelAlloc kernelAllocUnchecked
    rw [hk, halign]
    cases hpp : ppaAllocate D ppa0
        ((PAGE_SIZE * ((size + (PAGE_SIZE - 1)) / PAGE_SIZE)) % W) with
    | mk o l =>
      rw [hpp] at hnone
      simp at hnone
      subst hnone
      rfl

/-- Witness for C7: main mode active, one free node, a 100-byte request
rounds to one page. -/
theorem kernelAlloc_spec_witness :
    (100 < W ∧ (VMSt.mk [(4096, 8192)] true true).kptSet = true ∧
      ppaAllocate 0 (VMSt.mk [(4096, 8192)] true true).ppa
        ((PAGE_SIZE * ((100 + (PAGE_SIZE - 1)) / PAGE_SIZE)) % W) = (some 4096, [])) ∧
    kernelAlloc 0 1024 (VMSt.mk [(4096, 8192)] true true) 100 =
      .ok ((if (VMSt.mk [(4096, 8192)] true true).useKernelHeapAddresses
            then wadd 4096 1024 else physToVirt 0 4096,
            (PAGE_SIZE * ((100 + (PAGE_SIZE - 1)) / PAGE_SIZE)) % W),
        { VMSt.mk [(4096, 8192)] true true with ppa := [] }) :=
  ⟨⟨by decide, by decide, by decide⟩,
    ((kernelAlloc_spec 0 1024 100 (VMSt.mk [(4096, 8192)] true true)
      (by decide)).2 rfl).1 4096 [] (by decide)⟩

/-! ### Page-table engine (`src/kernel/src/mem/vm/paging.rs`)

Descriptors are raw 64-bit words; a page table is a list of 512 descriptor
words; the heap of table pages is a list of tables (the abstract
`Translation` allocator is modelled by appending a zeroed table whose
"physical address" is `(index + 1) * PAGE_SIZE`, which `physical_to_virtual`
inverts — page-aligned, nonzero and below `2^48` exactly as the kernel's
direct-mapped heap pages are).  A level is represented by the number of
levels left to the leaf: `lvlsLeft = LEAF_LEVEL - level`. -/

def LEAF_LEVEL : ℕ := 3

def BITS_PER_LEVEL : ℕ := 12 - 3

/-- Attribute bits (`bitflags! Attributes` in `paging.rs`). -/
def ATTR_VALID : ℕ := 1 <<< 0

def ATTR_TABLE_OR_PAGE : ℕ := 1 <<< 1

def ATTR_DEVICE_NGNRE : ℕ := 0 <<< 2

def ATTR_NORMAL : ℕ := (1 <<< 2) ||| (3 <<< 8)

def ATTR_USER : ℕ := 1 <<< 6

def ATTR_READ_ONLY : ℕ := 1 <<< 7

def ATTR_ACCESSED : ℕ := 1 <<< 10

def ATTR_NON_GLOBAL : ℕ := 1 <<< 11

def ATTR_EXECUTE_NEVER : ℕ := 3 <<< 53

/-- The union of all defined attribute bits (the `bitflags` full mask used
by `Attributes::from_bits`). -/
def ATTR_ALL : ℕ :=
  ATTR_VALID ||| ATTR_TABLE_OR_PAGE ||| ATTR_NORMAL ||| ATTR_USER |||
  ATTR_READ_ONLY ||| ATTR_ACCESSED ||| ATTR_NON_GLOBAL ||| ATTR_EXECUTE_NEVER

/-- Mask kept by `Descriptor::flags`: `(PAGE_SIZE - 1) | (0xffff << 48)`. -/
def descLowMask : ℕ := (PAGE_SIZE - 1) ||| (0xffff <<< 48)

/-- Mask kept by `Descriptor::output_address`:
`!(PAGE_SIZE - 1) & !(0xffff << 48)` (usize complement is `W - 1 - x`). -/
def descOutMask : ℕ := (W - 1 - (PAGE_SIZE - 1)) &&& (W - 1 - (0xffff <<< 48))

/-- `Descriptor::is_valid`. -/
def descIsValid (d : ℕ) : Bool := d &&& ATTR_VALID != 0

/-- `Descriptor::flags`: `Attributes::from_bits` returns `None` when any
unknown bit is set. -/
def descFlags (d : ℕ) : Option ℕ :=
  if descIsValid d then
    if (d &&& descLowMask) &&& (W - 1 - ATTR_ALL) = 0 then some (d &&& descLowMask)
    else none
  else none

/-- `Descriptor::output_address`. -/
def descOutput (d : ℕ) : Option ℕ :=
  if descIsValid d then some (d &&& descOutMask) else none

/-- `Descriptor::is_table_or_page` (`flags().contains(TABLE_OR_PAGE)`). -/
def descIsTableOrPage (d : ℕ) : Bool :=
  match descFlags d with
  | some f => f &&& ATTR_TABLE_OR_PAGE == ATTR_TABLE_OR_PAGE
  | none => false

/-- `Descriptor::set`: `pa | (flags | VALID)`. -/
def descSet (pa flags : ℕ) : ℕ := pa ||| (flags ||| ATTR_VALID)

/-- The model's table-page physical address for store index `i`. -/
def tablePA (i : ℕ) : ℕ := (i + 1) * PAGE_SIZE

/-- `Translation::physical_to_virtual` of the model: recover the store
index from a table page's physical address. -/
def tableIdxOfPA (pa : ℕ) : ℕ := pa / PAGE_SIZE - 1

/-- A page-table store: table `i` is a list of 512 descriptor words. -/
abbrev PTStore := List (List ℕ)

/-- `Translation::allocate_table`: append a zeroed table, returning its
index. -/
def allocTable (st : PTStore) : PTStore × ℕ :=
  (st ++ [List.replicate 512 0], st.length)

/-- `Descriptor::subtable` at a non-leaf level: a valid table descriptor
yields the pointed-to table. -/
def descSubtable (d : ℕ) : Option ℕ :=
  if descIsTableOrPage d then
    match descOutput d with
    | some pa => some (tableIdxOfPA pa)
    | none => none
  else none

/-- `granularity_at_level` with `lvlsLeft = LEAF_LEVEL - level`:
`PAGE_SIZE << ((LEAF_LEVEL - level) * BITS_PER_LEVEL)`. -/
def granularity (lvlsLeft : ℕ) : ℕ := PAGE_SIZE <<< (lvlsLeft * BITS_PER_LEVEL)

/-- Descriptor index for a virtual address
(`get_entry_mut` in `paging.rs`): `(va >> shift) % 512`. -/
def entryIdx (lvlsLeft va : ℕ) : ℕ :=
  (va >>> (12 + lvlsLeft * BITS_PER_LEVEL)) % (1 <<< BITS_PER_LEVEL)

def getEntry (st : PTStore) (t i : ℕ) : ℕ := (st.getD t []).getD i 0

def setEntry (st : PTStore) (t i d : ℕ) : PTStore :=
  st.set t ((st.getD t []).set i d)

/-- `MemoryRegion::is_block`: `(start | end) & (gran - 1) == 0`. -/
def regionIsBlock (rs re gran : ℕ) : Bool := (rs ||| re) &&& (gran - 1) == 0

theorem le_lor_left (a b : ℕ) : a ≤ a ||| b :=
  Nat.le_of_testBit fun i h => by simp [Nat.testBit_or, h]

/-- `MemoryRegion::split` / `ChunkedIterator` (`paging.rs` line 315-347):
cut `[rs, re)` into granule-bounded chunks.  (`(cur | (gran-1)) + 1` cannot
overflow for the page-aligned regions produced by `MemoryRegion::new`, so
the addition is exact.)  The structural `fuel` argument only bounds the
iteration count: every step advances `cur` by at least one, so with
`fuel ≥ re - cur` the guard, not the fuel, ends the loop, exactly as the
source iterator does. -/
def chunksGo (rs re gran : ℕ) : ℕ → ℕ → List (ℕ × ℕ)
  | 0, _ => []
  | fuel + 1, cur =>
    if rs ≤ cur ∧ cur < re then
      memRegionNew cur (min re ((cur ||| (gran - 1)) + 1)) ::
        chunksGo rs re gran fuel (min re ((cur ||| (gran - 1)) + 1))
    else []

def chunks (rs re gran : ℕ) : List (ℕ × ℕ) := chunksGo rs re gran (re - rs) rs

/-- `PageTableWithLevel::map_range` (`paging.rs` line 438-487), with the
level expressed as levels-left-to-leaf.  Returns the updated store and the
advanced physical cursor.  At the leaf a page descriptor is written; at a
non-leaf level a block descriptor is written when the chunk spans the whole
granule, no table mapping is present and the physical cursor is
granule-aligned; otherwise the walk descends into the existing subtable or
allocates a new one, first re-materialising a pre-existing valid block
across the granule-aligned window with the old physical base and flags. -/
def mapRangeFrom : ℕ → PTStore → ℕ → ℕ → ℕ → ℕ → ℕ → PTStore × ℕ
  | 0, st, t, rs, re, pa, flags =>
    (chunks rs re (granularity 0)).foldl
      (fun acc c =>
        (setEntry acc.1 t (entryIdx 0 c.1)
          (descSet acc.2 (flags ||| ATTR_ACCESSED ||| ATTR_TABLE_OR_PAGE)),
         wadd acc.2 (memRegionLen c)))
      (st, pa)
  | (n+1), st, t, rs, re, pa, flags =>
    (chunks rs re (granularity (n+1))).foldl
      (fun acc c =>
        (if regionIsBlock c.1 c.2 (granularity (n+1)) &&
            !(descIsTableOrPage (getEntry acc.1 t (entryIdx (n+1) c.1))) &&
            isAligned acc.2 (granularity (n+1)) then
          setEntry acc.1 t (entryIdx (n+1) c.1)
            (descSet acc.2 (flags ||| ATTR_ACCESSED))
        else
          match descSubtable (getEntry acc.1 t (entryIdx (n+1) c.1)) with
          | some child => (mapRangeFrom n acc.1 child c.1 c.2 acc.2 flags).1
          | none =>
            let stNew := (allocTable acc.1).1
            let newIdx := (allocTable acc.1).2
            let stFilled :=
              match descFlags (getEntry acc.1 t (entryIdx (n+1) c.1)),
                    descOutput (getEntry acc.1 t (entryIdx (n+1) c.1)) with
              | some oldFlags, some oldPa =>
                (mapRangeFrom n stNew newIdx
                  (alignDown c.1 (granularity (n+1)))
                  (alignUp c.2 (granularity (n+1))) oldPa oldFlags).1
              | _, _ => stNew
            let stLinked := setEntry stFilled t (entryIdx (n+1) c.1)
              (descSet (tablePA newIdx) ATTR_TABLE_OR_PAGE)
            (mapRangeFrom n stLinked newIdx c.1 c.2 acc.2 flags).1,
         wadd acc.2 (memRegionLen c)))
      (st, pa)

/-- `VaRange` (`paging.rs`). -/
inductive PTVaRange where
  | lower
  | upper
deriving DecidableEq

/-- `MapError` (`src/kernel/src/mem/vm/mod.rs`), regions carried as their
`(start, end)` pair. -/
inductive PTMapError where
  | addressRange (va : ℕ)
  | invalidVirtualAddress (va : ℕ)
  | regionBackwards (rs re : ℕ)
deriving DecidableEq

/-- `RootTable` state: the table store, the root's index and level, and the
configured VA range. -/
structure RootSt where
  store : PTStore
  rootIdx : ℕ
  rootLevel : ℕ
  vaRange : PTVaRange
deriving DecidableEq

/-- `RootTable::new` (fresh hierarchy with a single zeroed root table). -/
def rootNew (vr : PTVaRange) (level : ℕ) : RootSt :=
  { store := (allocTable []).1, rootIdx := (allocTable []).2,
    rootLevel := level, vaRange := vr }

/-- `RootTable::size`: `granularity_at_level(root level) << BITS_PER_LEVEL`. -/
def rootSize (level : ℕ) : ℕ := granularity (LEAF_LEVEL - level) <<< BITS_PER_LEVEL

/-- `RootTable::map_range` (`paging.rs` line 241-270): reject a backwards
region, then validate the region against the configured VA range (`Lower`:
start non-negative as a signed word and end within the addressable size;
`Upper`: start negative as a signed word and unsigned magnitude within the
addressable size), then recursively map. -/
def rootMapRange (r : RootSt) (rs re pa flags : ℕ) : Except PTMapError RootSt :=
  if re < rs then .error (.regionBackwards rs re)
  else
    match r.vaRange with
    | .lower =>
      if 2 ^ 63 ≤ rs then .error (.addressRange rs)
      else if rootSize r.rootLevel < re then .error (.addressRange re)
      else .ok { r with store :=
        (mapRangeFrom (LEAF_LEVEL - r.rootLevel) r.store r.rootIdx rs re pa flags).1 }
    | .upper =>
      if rs < 2 ^ 63 ∨ rootSize r.rootLevel < W - rs then .error (.addressRange rs)
      else .ok { r with store :=
        (mapRangeFrom (LEAF_LEVEL - r.rootLevel) r.store r.rootIdx rs re pa flags).1 }

instance {e a : Type} [DecidableEq e] [DecidableEq a] : DecidableEq (Except e a) :=
  fun x y =>
  match x, y with
  | .ok v, .ok w =>
    if h : v = w then isTrue (by rw [h]) else isFalse (by intro hc; cases hc; exact h rfl)
  | .error v, .error w =>
    if h : v = w then isTrue (by rw [h]) else isFalse (by intro hc; cases hc; exact h rfl)
  | .ok _, .error _ => isFalse (by intro hc; cases hc)
  | .error _, .ok _ => isFalse (by intro hc; cases hc)

/-! ### Characterisation of the chunk iterator on aligned regions -/

theorem granularity_eq (l : ℕ) : granularity l = 2 ^ (12 + 9 * l) := by
  show PAGE_SIZE <<< (l * BITS_PER_LEVEL) = _
  rw [Nat.shiftLeft_eq, PAGE_SIZE_eq]
  show 2 ^ 12 * 2 ^ (l * 9) = _
  rw [← pow_add]
  ring_nf

theorem entryIdx_eq (l va : ℕ) : entryIdx l va = va / 2 ^ (12 + 9 * l) % 512 := by
  show (va >>> (12 + l * BITS_PER_LEVEL)) % (1 <<< BITS_PER_LEVEL) = _
  rw [Nat.shiftRight_eq_div_pow]
  have h1 : (1 <<< BITS_PER_LEVEL : ℕ) = 512 := rfl
  have h2 : 12 + l * BITS_PER_LEVEL = 12 + 9 * l := by
    show 12 + l * 9 = 12 + 9 * l
    ring
  rw [h1, h2]

theorem alignUp_of_aligned {v : ℕ} (h4 : v % 4096 = 0) (hW : v + 4096 ≤ W) :
    alignUp v PAGE_SIZE = v := by
  rcases Nat.eq_zero_or_pos v with h0 | h1
  · subst h0
    decide
  · rw [PAGE_SIZE_eq]
    rw [alignUp_eq h1 (by norm_num at hW ⊢; omega)]
    obtain ⟨m, hm⟩ := Nat.dvd_of_mod_eq_zero h4
    subst hm
    have hm1 : 1 ≤ m := by omega
    have hdiv : (4096 * m - 1) / 2 ^ 12 = m - 1 := by
      rw [show (4096:ℕ) * m - 1 = 4095 + 2 ^ 12 * (m - 1) by omega]
      rw [Nat.add_mul_div_left _ _ (by norm_num : (0:ℕ) < 2 ^ 12)]
      norm_num
    rw [hdiv, show m - 1 + 1 = m by omega]
    norm_num

theorem alignDown_of_aligned {v : ℕ} (h4 : v % 4096 = 0) (hW : v < W) :
    alignDown v PAGE_SIZE = v := by
  rw [PAGE_SIZE_eq, alignDown_eq (by norm_num) hW]
  omega

theorem memRegionNew_aligned {a b : ℕ} (ha : a % 4096 = 0) (hb : b % 4096 = 0)
    (haW : a < W) (hbW : b + 4096 ≤ W) : memRegionNew a b = (a, b) := by
  unfold memRegionNew
  rw [alignDown_of_aligned ha haW, alignUp_of_aligned hb hbW]

theorem lor_aligned_add {γ q : ℕ} (hq : 2 ^ γ * q < W) :
    (2 ^ γ * q) ||| (2 ^ γ - 1) = 2 ^ γ * q + (2 ^ γ - 1) := by
  have := mul_add_lor_two_pow_sub_one (q := q) (k := γ) (r := 0)
    (Nat.pos_pow_of_pos _ (by norm_num))
  simpa using this

/-- On a region whose bounds are multiples of the granule `2^γ`
(`12 ≤ γ`, region below `2^48`), the chunk iterator yields exactly the
consecutive granule-sized pieces. -/
theorem chunksGo_aligned (γ : ℕ) (hγl : 12 ≤ γ) (rs re : ℕ)
    (hre : re % 2 ^ γ = 0) (hW : re ≤ 2 ^ 48) :
    ∀ fuel cur, cur % 2 ^ γ = 0 → rs ≤ cur → cur ≤ re → re - cur ≤ fuel →
    chunksGo rs re (2 ^ γ) fuel cur =
      (List.range ((re - cur) / 2 ^ γ)).map
        (fun j => (cur + j * 2 ^ γ, cur + j * 2 ^ γ + 2 ^ γ)) := by
  have hpow : (0:ℕ) < 2 ^ γ := Nat.pos_pow_of_pos _ (by norm_num)
  have hdvd4 : (4096:ℕ) ∣ 2 ^ γ := by
    have h := pow_dvd_pow 2 hγl
    norm_num at h
    exact h
  intro fuel
  induction fuel with
  | zero =>
    intro cur _ _ hle hfu
    have hcur : re - cur = 0 := by omega
    rw [hcur]
    simp [chunksGo]
  | succ fuel ih =>
    intro cur hal hlo hhi hfu
    rcases Nat.eq_or_lt_of_le hhi with heq | hlt
    · subst heq
      simp [chunksGo]
    · have hstep : (cur ||| (2 ^ γ - 1)) + 1 = cur + 2 ^ γ := by
        obtain ⟨q, hq⟩ := Nat.dvd_of_mod_eq_zero hal
        subst hq
        rw [lor_aligned_add (by
          have h48 : (2:ℕ) ^ 48 < W := by unfold W; norm_num
          omega)]
        omega
      have hcurW : cur + 2 ^ γ ≤ re := by
        obtain ⟨q, hq⟩ := Nat.dvd_of_mod_eq_zero hal
        obtain ⟨m, hm⟩ := Nat.dvd_of_mod_eq_zero hre
        subst hq hm
        have hqm : q < m := by
          by_contra hc
          push_neg at hc
          have := Nat.mul_le_mul_left (2 ^ γ) hc
          omega
        calc 2 ^ γ * q + 2 ^ γ = 2 ^ γ * (q + 1) := by ring
          _ ≤ 2 ^ γ * m := Nat.mul_le_mul_left _ (by omega)
      have hmin : min re ((cur ||| (2 ^ γ - 1)) + 1) = cur + 2 ^ γ := by
        rw [hstep]
        exact min_eq_right hcurW
      have h4c : cur % 4096 = 0 :=
        Nat.mod_eq_zero_of_dvd (dvd_trans hdvd4 (Nat.dvd_of_mod_eq_zero hal))
      have h4ce : (cur + 2 ^ γ) % 4096 = 0 :=
        Nat.mod_eq_zero_of_dvd
          (Nat.dvd_add (dvd_trans hdvd4 (Nat.dvd_of_mod_eq_zero hal)) hdvd4)
      have hreg : memRegionNew cur (cur + 2 ^ γ) = (cur, cur + 2 ^ γ) := by
        refine memRegionNew_aligned h4c h4ce ?_ ?_
        · have h48 : (2:ℕ) ^ 48 < W := by unfold W; norm_num
          omega
        · have h48 : (2:ℕ) ^ 48 + 4096 ≤ W := by unfold W; norm_num
          omega
      rw [show chunksGo rs re (2 ^ γ) (fuel + 1) cur =
          if rs ≤ cur ∧ cur < re then
            memRegionNew cur (min re ((cur ||| (2 ^ γ - 1)) + 1)) ::
              chunksGo rs re (2 ^ γ) fuel (min re ((cur ||| (2 ^ γ - 1)) + 1))
          else [] from rfl]
      rw [if_pos ⟨hlo, hlt⟩, hmin, hreg]
      have hale : (cur + 2 ^ γ) % 2 ^ γ = 0 :=
        Nat.mod_eq_zero_of_dvd (Nat.dvd_add (Nat.dvd_of_mod_eq_zero hal) dvd_rfl)
      rw [ih (cur + 2 ^ γ) hale (by omega) hcurW (by omega)]
      have hn : (re - cur) / 2 ^ γ = (re - (cur + 2 ^ γ)) / 2 ^ γ + 1 := by
        rw [show re - cur = (re - (cur + 2 ^ γ)) + 2 ^ γ by omega,
          Nat.add_div_right _ hpow]
      rw [hn, List.range_succ_eq_map]
      simp only [List.map_cons, List.map_map]
      refine congrArg₂ List.cons (by simp) ?_
      refine List.map_congr_left ?_
      intro j _
      simp only [Function.comp_apply, Nat.succ_eq_add_one]
      have harith : cur + 2 ^ γ + j * 2 ^ γ = cur + (j + 1) * 2 ^ γ := by ring
      rw [harith]

/-- `chunks` on an aligned region. -/
theorem chunks_aligned (γ : ℕ) (hγl : 12 ≤ γ) (rs re : ℕ)
    (hrs : rs % 2 ^ γ = 0) (hre : re % 2 ^ γ = 0) (hle : rs ≤ re)
    (hW : re ≤ 2 ^ 48) :
    chunks rs re (2 ^ γ) =
      (List.range ((re - rs) / 2 ^ γ)).map
        (fun j => (rs + j * 2 ^ γ, rs + j * 2 ^ γ + 2 ^ γ)) :=
  chunksGo_aligned γ hγl rs re hre hW (re - rs) rs hrs le_rfl hle le_rfl

/-! ### Store access helpers -/

theorem getD_set_same {l : List ℕ} {i : ℕ} (h : i < l.length) (x : ℕ) :
    (l.set i x).getD i 0 = x := by
  rw [List.getD_eq_getElem?_getD, List.getElem?_set_self h]
  rfl

theorem getD_set_other {l : List ℕ} {i j : ℕ} (h : i ≠ j) (x : ℕ) :
    (l.set i x).getD j 0 = l.getD j 0 := by
  rw [List.getD_eq_getElem?_getD, List.getElem?_set_ne h,
    ← List.getD_eq_getElem?_getD]

theorem getD_range_map (f : ℕ → ℕ) {i n : ℕ} (h : i < n) :
    ((List.range n).map f).getD i 0 = f i := by
  rw [List.getD_eq_getElem?_getD, List.getElem?_map, List.getElem?_range h]
  rfl

theorem setEntry_getD_same {st : PTStore} {t : ℕ} (ht : t < st.length) (i d : ℕ) :
    (setEntry st t i d).getD t [] = (st.getD t []).set i d := by
  unfold setEntry
  rw [List.getD_eq_getElem?_getD, List.getElem?_set_self ht]
  rfl

theorem setEntry_getD_other {st : PTStore} {t t2 : ℕ} (h : t ≠ t2) (i d : ℕ) :
    (setEntry st t i d).getD t2 [] = st.getD t2 [] := by
  unfold setEntry
  rw [List.getD_eq_getElem?_getD, List.getElem?_set_ne h,
    ← List.getD_eq_getElem?_getD]

theorem setEntry_length (st : PTStore) (t i d : ℕ) :
    (setEntry st t i d).length = st.length := by
  unfold setEntry
  exact List.length_set _ _ _

theorem getD_append_left {l l2 : List (List ℕ)} {i : ℕ} (h : i < l.length) :
    (l ++ l2).getD i [] = l.getD i [] := by
  rw [List.getD_eq_getElem?_getD, List.getElem?_append, if_pos h,
    ← List.getD_eq_getElem?_getD]

theorem getD_append_self (l : List (List ℕ)) (x : List ℕ) :
    (l ++ [x]).getD l.length [] = x := by
  rw [List.getD_eq_getElem?_getD, List.getElem?_append_right le_rfl]
  simp

/-! ### Loop-invariant characterisation of the leaf-level fold -/

/-- Writing a page-aligned window of `n` pages at the leaf level fills the
consecutive descriptor slots with page descriptors
`descSet (pa + j*4096) (flags | ACCESSED | TABLE_OR_PAGE)` and touches
nothing else. -/
theorem mapLeafFold (n : ℕ) : ∀ (st : PTStore) (t rs pa fl : ℕ),
    t < st.length →
    (st.getD t []).length = 512 →
    rs % 4096 = 0 →
    rs + n * 4096 ≤ 2 ^ 48 →
    rs / 4096 % 512 + n ≤ 512 →
    pa + n * 4096 < W →
    (mapRangeFrom 0 st t rs (rs + n * 4096) pa fl).1.length = st.length ∧
    (∀ t2, t2 ≠ t →
      (mapRangeFrom 0 st t rs (rs + n * 4096) pa fl).1.getD t2 [] = st.getD t2 []) ∧
    ((mapRangeFrom 0 st t rs (rs + n * 4096) pa fl).1.getD t []).length = 512 ∧
    (∀ i < 512,
      ((mapRangeFrom 0 st t rs (rs + n * 4096) pa fl).1.getD t []).getD i 0 =
        if rs / 4096 % 512 ≤ i ∧ i < rs / 4096 % 512 + n then
          descSet (pa + (i - rs / 4096 % 512) * 4096)
            (fl ||| ATTR_ACCESSED ||| ATTR_TABLE_OR_PAGE)
        else (st.getD t []).getD i 0) := by
  induction n with
  | zero =>
    intro st t rs pa fl ht hlen hal hW hwin hpa
    have hchunks : chunks rs (rs + 0 * 4096) (granularity 0) = [] := by
      have h0 : rs + 0 * 4096 = rs := by omega
      rw [h0]
      show chunksGo rs rs (granularity 0) (rs - rs) rs = []
      rw [Nat.sub_self]
      rfl
    have hmain : (mapRangeFrom 0 st t rs (rs + 0 * 4096) pa fl).1 = st := by
      simp only [mapRangeFrom, hchunks, List.foldl_nil]
    rw [hmain]
    refine ⟨rfl, fun _ _ => rfl, hlen, fun i _ => ?_⟩
    rw [if_neg (by omega)]
  | succ n ih =>
    intro st t rs pa fl ht hlen hal hW hwin hpa
    have hg0 : granularity 0 = 2 ^ 12 := by
      rw [granularity_eq]
    have hi0lt : rs / 4096 % 512 < 512 := Nat.mod_lt _ (by norm_num)
    have h48W : (2:ℕ) ^ 48 + 4096 < W := by unfold W; norm_num
    have hchunks : chunks rs (rs + (n + 1) * 4096) (2 ^ 12) =
        (List.range (n + 1)).map
          (fun j => (rs + j * 2 ^ 12, rs + j * 2 ^ 12 + 2 ^ 12)) := by
      rw [chunks_aligned 12 le_rfl _ _ (by omega) (by omega) (by omega) (by omega)]
      have hcount : (rs + (n + 1) * 4096 - rs) / 2 ^ 12 = n + 1 := by omega
      rw [hcount]
    have hstep : mapRangeFrom 0 st t rs (rs + (n + 1) * 4096) pa fl =
        List.foldl
          (fun acc c =>
            (setEntry acc.1 t (entryIdx 0 c.1)
              (descSet acc.2 (fl ||| ATTR_ACCESSED ||| ATTR_TABLE_OR_PAGE)),
             wadd acc.2 (memRegionLen c)))
          (st, pa)
          ((List.range (n + 1)).map
            (fun j => (rs + j * 2 ^ 12, rs + j * 2 ^ 12 + 2 ^ 12))) := by
      simp only [mapRangeFrom, hg0, hchunks]
    have htail_list :
        (List.range n).map
            ((fun j => ((rs:ℕ) + j * 2 ^ 12, rs + j * 2 ^ 12 + 2 ^ 12)) ∘ Nat.succ) =
          (List.range n).map
            (fun j => (rs + 4096 + j * 2 ^ 12, rs + 4096 + j * 2 ^ 12 + 2 ^ 12)) := by
      refine List.map_congr_left ?_
      intro j _
      simp only [Function.comp_apply, Nat.succ_eq_add_one]
      have hj : rs + (j + 1) * 2 ^ 12 = rs + 4096 + j * 2 ^ 12 := by omega
      rw [hj]
    have hchunks2 : chunks (rs + 4096) (rs + 4096 + n * 4096) (2 ^ 12) =
        (List.range n).map
          (fun j => (rs + 4096 + j * 2 ^ 12, rs + 4096 + j * 2 ^ 12 + 2 ^ 12)) := by
      rw [chunks_aligned 12 le_rfl _ _ (by omega) (by omega) (by omega) (by omega)]
      have hcount : (rs + 4096 + n * 4096 - (rs + 4096)) / 2 ^ 12 = n := by omega
      rw [hcount]
    have htail : ∀ st2 pa2,
        List.foldl
          (fun acc c =>
            (setEntry acc.1 t (entryIdx 0 c.1)
              (descSet acc.2 (fl ||| ATTR_ACCESSED ||| ATTR_TABLE_OR_PAGE)),
             wadd acc.2 (memRegionLen c)))
          (st2, pa2)
          ((List.range n).map
            (fun j => (rs + 4096 + j * 2 ^ 12, rs + 4096 + j * 2 ^ 12 + 2 ^ 12))) =
        mapRangeFrom 0 st2 t (rs + 4096) (rs + 4096 + n * 4096) pa2 fl := by
      intro st2 pa2
      simp only [mapRangeFrom, hg0, hchunks2]
    have hidx0 : entryIdx 0 (rs + 0 * 2 ^ 12) = rs / 4096 % 512 := by
      rw [entryIdx_eq]
      norm_num
    have hlen0 : memRegionLen (rs + 0 * 2 ^ 12, rs + 0 * 2 ^ 12 + 2 ^ 12) = 4096 := by
      unfold memRegionLen
      rw [wsub_eq (by omega) (by omega)]
      omega
    have hpa0 : wadd pa 4096 = pa + 4096 := wadd_eq (by omega)
    rw [hstep, List.range_succ_eq_map, List.map_cons, List.foldl_cons, List.map_map,
      htail_list]
    dsimp only
    rw [hidx0, hlen0, hpa0, htail]
    set st1 := setEntry st t (rs / 4096 % 512)
      (descSet pa (fl ||| ATTR_ACCESSED ||| ATTR_TABLE_OR_PAGE)) with hst1
    have ht1 : t < st1.length := by
      rw [hst1, setEntry_length]
      exact ht
    have htbl1 : st1.getD t [] = (st.getD t []).set (rs / 4096 % 512)
        (descSet pa (fl ||| ATTR_ACCESSED ||| ATTR_TABLE_OR_PAGE)) := by
      rw [hst1]
      exact setEntry_getD_same ht _ _
    have hlen1 : (st1.getD t []).length = 512 := by
      rw [htbl1, List.length_set]
      exact hlen
    have hi1 : n = 0 ∨ (rs + 4096) / 4096 % 512 = rs / 4096 % 512 + 1 := by
      rcases Nat.eq_zero_or_pos n with h0 | h1
      · exact Or.inl h0
      · right
        omega
    obtain ⟨ihl, iho, ihtl, ihv⟩ := ih st1 t (rs + 4096) (pa + 4096) fl ht1 hlen1
      (by omega) (by omega)
      (by rcases hi1 with h0 | hI1
          · omega
          · omega)
      (by omega)
    refine ⟨?_, ?_, ihtl, ?_⟩
    · rw [ihl, hst1, setEntry_length]
    · intro t2 ht2
      rw [iho t2 ht2, hst1, setEntry_getD_other (fun h => ht2 h.symm)]
    · intro i hi
      rw [ihv i hi]
      by_cases hcase : (rs + 4096) / 4096 % 512 ≤ i ∧ i < (rs + 4096) / 4096 % 512 + n
      · rw [if_pos hcase]
        have hn1 : n ≠ 0 := by
          rintro rfl
          omega
        rcases hi1 with h0 | hI1
        · exact absurd h0 hn1
        · rw [if_pos (by omega)]
          have harg : pa + 4096 + (i - (rs + 4096) / 4096 % 512) * 4096 =
              pa + (i - rs / 4096 % 512) * 4096 := by omega
          rw [harg]
      · rw [if_neg hcase, htbl1]
        by_cases hieq : i = rs / 4096 % 512
        · subst hieq
          rw [getD_set_same (by omega), if_pos ⟨le_rfl, by omega⟩]
          have harg : pa + (rs / 4096 % 512 - rs / 4096 % 512) * 4096 = pa := by
            omega
          rw [harg]
        · rw [getD_set_other (fun h => hieq h.symm)]
          rw [if_neg (by rcases hi1 with h0 | hI1 <;> omega)]

theorem regionIsBlock_aligned {a b γ : ℕ} (ha : a % 2 ^ γ = 0) (hb : b % 2 ^ γ = 0) :
    regionIsBlock a b (2 ^ γ) = true := by
  unfold regionIsBlock
  rw [beq_iff_eq, Nat.and_distrib_right, Nat.and_pow_two_sub_one_eq_mod,
    Nat.and_pow_two_sub_one_eq_mod, ha, hb]
  rfl

/-- Writing a granule-aligned window of `n` 2 MiB blocks at level 2
(`lvlsLeft = 1`) over empty descriptor slots fills them with block
descriptors `descSet (pa + j*2^21) (flags | ACCESSED)` and touches nothing
else; the physical cursor must be 2 MiB-aligned (otherwise the engine would
split instead). -/
theorem mapBlockFold (n : ℕ) : ∀ (st : PTStore) (t rs pa fl : ℕ),
    t < st.length →
    (st.getD t []).length = 512 →
    rs % 2097152 = 0 →
    rs + n * 2097152 ≤ 2 ^ 48 →
    rs / 2097152 % 512 + n ≤ 512 →
    pa % 2097152 = 0 →
    pa + n * 2097152 < W →
    (∀ j < n, (st.getD t []).getD (rs / 2097152 % 512 + j) 0 = 0) →
    (mapRangeFrom 1 st t rs (rs + n * 2097152) pa fl).1.length = st.length ∧
    (∀ t2, t2 ≠ t →
      (mapRangeFrom 1 st t rs (rs + n * 2097152) pa fl).1.getD t2 [] = st.getD t2 []) ∧
    ((mapRangeFrom 1 st t rs (rs + n * 2097152) pa fl).1.getD t []).length = 512 ∧
    (∀ i < 512,
      ((mapRangeFrom 1 st t rs (rs + n * 2097152) pa fl).1.getD t []).getD i 0 =
        if rs / 2097152 % 512 ≤ i ∧ i < rs / 2097152 % 512 + n then
          descSet (pa + (i - rs / 2097152 % 512) * 2097152) (fl ||| ATTR_ACCESSED)
        else (st.getD t []).getD i 0) := by
  induction n with
  | zero =>
    intro st t rs pa fl ht hlen hal hW hwin hpal hpa hz
    have hchunks : chunks rs (rs + 0 * 2097152) (granularity (0 + 1)) = [] := by
      have h0 : rs + 0 * 2097152 = rs := by omega
      rw [h0]
      show chunksGo rs rs (granularity (0 + 1)) (rs - rs) rs = []
      rw [Nat.sub_self]
      rfl
    have hmain : (mapRangeFrom 1 st t rs (rs + 0 * 2097152) pa fl).1 = st := by
      show (mapRangeFrom (0 + 1) st t rs (rs + 0 * 2097152) pa fl).1 = st
      simp only [mapRangeFrom, hchunks, List.foldl_nil]
    rw [hmain]
    refine ⟨rfl, fun _ _ => rfl, hlen, fun i _ => ?_⟩
    rw [if_neg (by omega)]
  | succ n ih =>
    intro st t rs pa fl ht hlen hal hW hwin hpal hpa hz
    have hg1 : granularity (0 + 1) = 2 ^ 21 := by
      rw [granularity_eq]
    have hi0lt : rs / 2097152 % 512 < 512 := Nat.mod_lt _ (by norm_num)
    have h48W : (2:ℕ) ^ 48 + 2097152 < W := by unfold W; norm_num
    have hchunks : chunks rs (rs + (n + 1) * 2097152) (2 ^ 21) =
        (List.range (n + 1)).map
          (fun j => (rs + j * 2 ^ 21, rs + j * 2 ^ 21 + 2 ^ 21)) := by
      rw [chunks_aligned 21 (by norm_num) _ _ (by omega) (by omega) (by omega)
        (by omega)]
      have hcount : (rs + (n + 1) * 2097152 - rs) / 2 ^ 21 = n + 1 := by omega
      rw [hcount]
    have hstep : mapRangeFrom 1 st t rs (rs + (n + 1) * 2097152) pa fl =
        List.foldl
          (fun acc c =>
            (if regionIsBlock c.1 c.2 (granularity (0 + 1)) &&
                !(descIsTableOrPage (getEntry acc.1 t (entryIdx (0 + 1) c.1))) &&
                isAligned acc.2 (granularity (0 + 1)) then
              setEntry acc.1 t (entryIdx (0 + 1) c.1)
                (descSet acc.2 (fl ||| ATTR_ACCESSED))
            else
              match descSubtable (getEntry acc.1 t (entryIdx (0 + 1) c.1)) with
              | some child => (mapRangeFrom 0 acc.1 child c.1 c.2 acc.2 fl).1
              | none =>
                let stNew := (allocTable acc.1).1
                let newIdx := (allocTable acc.1).2
                let stFilled :=
                  match descFlags (getEntry acc.1 t (entryIdx (0 + 1) c.1)),
                        descOutput (getEntry acc.1 t (entryIdx (0 + 1) c.1)) with
                  | some oldFlags, some oldPa =>
                    (mapRangeFrom 0 stNew newIdx
                      (alignDown c.1 (granularity (0 + 1)))
                      (alignUp c.2 (granularity (0 + 1))) oldPa oldFlags).1
                  | _, _ => stNew
                let stLinked := setEntry stFilled t (entryIdx (0 + 1) c.1)
                  (descSet (tablePA newIdx) ATTR_TABLE_OR_PAGE)
                (mapRangeFrom 0 stLinked newIdx c.1 c.2 acc.2 fl).1,
             wadd acc.2 (memRegionLen c)))
          (st, pa)
          ((List.range (n + 1)).map
            (fun j => (rs + j * 2 ^ 21, rs + j * 2 ^ 21 + 2 ^ 21))) := by
      show mapRangeFrom (0 + 1) st t rs (rs + (n + 1) * 2097152) pa fl = _
      rw [show (2097152:ℕ) = 2 ^ 21 from rfl] at hchunks ⊢
      simp only [mapRangeFrom, hg1, hchunks]
    have htail_list :
        (List.range n).map
            ((fun j => ((rs:ℕ) + j * 2 ^ 21, rs + j * 2 ^ 21 + 2 ^ 21)) ∘ Nat.succ) =
          (List.range n).map
            (fun j => (rs + 2097152 + j * 2 ^ 21,
              rs + 2097152 + j * 2 ^ 21 + 2 ^ 21)) := by
      refine List.map_congr_left ?_
      intro j _
      simp only [Function.comp_apply, Nat.succ_eq_add_one]
      have hj : rs + (j + 1) * 2 ^ 21 = rs + 2097152 + j * 2 ^ 21 := by omega
      rw [hj]
    have hchunks2 : chunks (rs + 2097152) (rs + 2097152 + n * 2097152) (2 ^ 21) =
        (List.range n).map
          (fun j => (rs + 2097152 + j * 2 ^ 21,
            rs + 2097152 + j * 2 ^ 21 + 2 ^ 21)) := by
      rw [chunks_aligned 21 (by norm_num) _ _ (by omega) (by omega) (by omega)
        (by omega)]
      have hcount : (rs + 2097152 + n * 2097152 - (rs + 2097152)) / 2 ^ 21 = n := by
        omega
      rw [hcount]
    have htail : ∀ st2 pa2,
        List.foldl
          (fun acc c =>
            (if regionIsBlock c.1 c.2 (granularity (0 + 1)) &&
                !(descIsTableOrPage (getEntry acc.1 t (entryIdx (0 + 1) c.1))) &&
                isAligned acc.2 (granularity (0 + 1)) then
              setEntry acc.1 t (entryIdx (0 + 1) c.1)
                (descSet acc.2 (fl ||| ATTR_ACCESSED))
            else
              match descSubtable (getEntry acc.1 t (entryIdx (0 + 1) c.1)) with
              | some child => (mapRangeFrom 0 acc.1 child c.1 c.2 acc.2 fl).1
              | none =>
                let stNew := (allocTable acc.1).1
                let newIdx := (allocTable acc.1).2
                let stFilled :=
                  match descFlags (getEntry acc.1 t (entryIdx (0 + 1) c.1)),
                        descOutput (getEntry acc.1 t (entryIdx (0 + 1) c.1)) with
                  | some oldFlags, some oldPa =>
                    (mapRangeFrom 0 stNew newIdx
                      (alignDown c.1 (granularity (0 + 1)))
                      (alignUp c.2 (granularity (0 + 1))) oldPa oldFlags).1
                  | _, _ => stNew
                let stLinked := setEntry stFilled t (entryIdx (0 + 1) c.1)
                  (descSet (tablePA newIdx) ATTR_TABLE_OR_PAGE)
                (mapRangeFrom 0 stLinked newIdx c.1 c.2 acc.2 fl).1,
             wadd acc.2 (memRegionLen c)))
          (st2, pa2)
          ((List.range n).map
            (fun j => (rs + 2097152 + j * 2 ^ 21,
              rs + 2097152 + j * 2 ^ 21 + 2 ^ 21))) =
        mapRangeFrom 1 st2 t (rs + 2097152) (rs + 2097152 + n * 2097152) pa2 fl := by
      intro st2 pa2
      show _ = mapRangeFrom (0 + 1) st2 t (rs + 2097152) (rs + 2097152 + n * 2097152)
        pa2 fl
      rw [show (2097152:ℕ) = 2 ^ 21 from rfl] at hchunks2 ⊢
      simp only [mapRangeFrom, hg1, hchunks2]
    have hidx0 : entryIdx (0 + 1) (rs + 0 * 2 ^ 21) = rs / 2097152 % 512 := by
      rw [entryIdx_eq]
      norm_num
    have hd0 : getEntry st t (rs / 2097152 % 512) = 0 := by
      have h := hz 0 (by omega)
      rw [Nat.add_zero] at h
      exact h
    have hcond : (regionIsBlock (rs + 0 * 2 ^ 21) (rs + 0 * 2 ^ 21 + 2 ^ 21)
          (granularity (0 + 1)) &&
        !(descIsTableOrPage (getEntry st t (entryIdx (0 + 1) (rs + 0 * 2 ^ 21)))) &&
        isAligned pa (granularity (0 + 1))) = true := by
      rw [hidx0, hg1, hd0]
      rw [regionIsBlock_aligned (by omega) (by omega)]
      rw [show descIsTableOrPage 0 = false from rfl]
      rw [show isAligned pa (2 ^ 21) = true from isAligned_iff.mpr (by omega)]
      rfl
    have hlen0 : memRegionLen (rs + 0 * 2 ^ 21, rs + 0 * 2 ^ 21 + 2 ^ 21) =
        2097152 := by
      unfold memRegionLen
      rw [wsub_eq (by omega) (by omega)]
      omega
    have hpa0 : wadd pa 2097152 = pa + 2097152 := wadd_eq (by omega)
    rw [hstep, List.range_succ_eq_map, List.map_cons, List.foldl_cons, List.map_map,
      htail_list]
    dsimp only
    rw [hcond, if_pos rfl, hidx0, hlen0, hpa0, htail]
    set st1 := setEntry st t (rs / 2097152 % 512)
      (descSet pa (fl ||| ATTR_ACCESSED)) with hst1
    have ht1 : t < st1.length := by
      rw [hst1, setEntry_length]
      exact ht
    have htbl1 : st1.getD t [] = (st.getD t []).set (rs / 2097152 % 512)
        (descSet pa (fl ||| ATTR_ACCESSED)) := by
      rw [hst1]
      exact setEntry_getD_same ht _ _
    have hlen1 : (st1.getD t []).length = 512 := by
      rw [htbl1, List.length_set]
      exact hlen
    have hi1 : n = 0 ∨ (rs + 2097152) / 2097152 % 512 = rs / 2097152 % 512 + 1 := by
      rcases Nat.eq_zero_or_pos n with h0 | h1
      · exact Or.inl h0
      · right
        omega
    have hz1 : ∀ j < n,
        (st1.getD t []).getD ((rs + 2097152) / 2097152 % 512 + j) 0 = 0 := by
      intro j hj
      rcases hi1 with h0 | hI1
      · omega
      · rw [hI1, htbl1, getD_set_other (by omega)]
        have h := hz (j + 1) (by omega)
        rw [show rs / 2097152 % 512 + 1 + j = rs / 2097152 % 512 + (j + 1) by omega]
        exact h
    obtain ⟨ihl, iho, ihtl, ihv⟩ := ih st1 t (rs + 2097152) (pa + 2097152) fl ht1
      hlen1 (by omega) (by omega)
      (by rcases hi1 with h0 | hI1 <;> omega)
      (by omega) (by omega) hz1
    refine ⟨?_, ?_, ihtl, ?_⟩
    · rw [ihl, hst1, setEntry_length]
    · intro t2 ht2
      rw [iho t2 ht2, hst1, setEntry_getD_other (fun h => ht2 h.symm)]
    · intro i hi
      rw [ihv i hi]
      by_cases hcase : (rs + 2097152) / 2097152 % 512 ≤ i ∧
          i < (rs + 2097152) / 2097152 % 512 + n
      · rw [if_pos hcase]
        have hn1 : n ≠ 0 := by
          rintro rfl
          omega
        rcases hi1 with h0 | hI1
        · exact absurd h0 hn1
        · rw [if_pos (by omega)]
          have harg : pa + 2097152 + (i - (rs + 2097152) / 2097152 % 512) * 2097152 =
              pa + (i - rs / 2097152 % 512) * 2097152 := by omega
          rw [harg]
      · rw [if_neg hcase, htbl1]
        by_cases hieq : i = rs / 2097152 % 512
        · subst hieq
          rw [getD_set_same (by omega), if_pos ⟨le_rfl, by omega⟩]
          have harg : pa + (rs / 2097152 % 512 - rs / 2097152 % 512) * 2097152 =
              pa := by omega
          rw [harg]
        · rw [getD_set_other (fun h => hieq h.symm)]
          rw [if_neg (by rcases hi1 with h0 | hI1 <;> omega)]

/-! ### The block-split scenario (S5): 1 GiB block, then remap one page -/

/-- Physical base of the original 1 GiB block mapping. -/
def origPa : ℕ := 0x40000000

/-- Physical base of the re-mapped page. -/
def newPa : ℕ := 0x999000

/-- Flags of the original mapping. -/
def origFl : ℕ := ATTR_NORMAL

/-- Flags of the re-mapped page (different from the original: adds XN). -/
def newFl : ℕ := ATTR_NORMAL ||| ATTR_EXECUTE_NEVER

/-- The hierarchy after mapping `[0, 1 GiB)` as one block: a root table
pointing to a level-1 table whose entry 0 is the block descriptor. -/
def blockState : RootSt :=
  { store := [(List.replicate 512 0).set 0 0x2003,
              (List.replicate 512 0).set 0 0x40000705],
    rootIdx := 0, rootLevel := 0, vaRange := PTVaRange.lower }

theorem blockState_eq :
    rootMapRange (rootNew PTVaRange.lower 0) 0 0x40000000 origPa origFl =
      Except.ok blockState := by
  decide

/-- Intermediate stores of the second `map_range` (the split). -/
def stNew1 : PTStore := blockState.store ++ [List.replicate 512 0]

def stFilled1 : PTStore := (mapRangeFrom 1 stNew1 2 0 1073741824 0x40000000 0x705).1

def stLinked1 : PTStore := setEntry stFilled1 1 0 0x3003

def stNew2 : PTStore := stLinked1 ++ [List.replicate 512 0]

def stFilled2 : PTStore := (mapRangeFrom 0 stNew2 3 0 2097152 0x40000000 0x705).1

def stLinked2 : PTStore := setEntry stFilled2 2 0 0x4003

def stFinal : PTStore := (mapRangeFrom 0 stLinked2 3 4096 8192 newPa newFl).1

/-- One unfolding step of `mapRangeFrom` at a non-leaf level, for a single
non-block chunk that descends into an existing subtable. -/
theorem mapRangeFrom_step_subtable (n : ℕ) (st : PTStore) (t rs re pa fl child : ℕ)
    (hchunks : chunks rs re (granularity (n + 1)) = [(rs, re)])
    (hblock : regionIsBlock rs re (granularity (n + 1)) = false)
    (hsub : descSubtable (getEntry st t (entryIdx (n + 1) rs)) = some child) :
    (mapRangeFrom (n + 1) st t rs re pa fl).1 =
      (mapRangeFrom n st child rs re pa fl).1 := by
  rw [mapRangeFrom, hchunks]
  simp only [List.foldl_cons, List.foldl_nil]
  rw [hblock]
  simp only [Bool.false_and, Bool.false_eq_true, if_false, hsub]

/-- One unfolding step of `mapRangeFrom` at a non-leaf level, for a single
non-block chunk whose slot holds a valid block descriptor: a fresh table is
allocated, the old block is re-materialised across the aligned window, the
slot is relinked to the new table and the walk descends into it. -/
theorem mapRangeFrom_step_split (n : ℕ) (st : PTStore) (t rs re pa fl ofl opa : ℕ)
    (hchunks : chunks rs re (granularity (n + 1)) = [(rs, re)])
    (hblock : regionIsBlock rs re (granularity (n + 1)) = false)
    (hsub : descSubtable (getEntry st t (entryIdx (n + 1) rs)) = none)
    (hfl : descFlags (getEntry st t (entryIdx (n + 1) rs)) = some ofl)
    (hout : descOutput (getEntry st t (entryIdx (n + 1) rs)) = some opa) :
    (mapRangeFrom (n + 1) st t rs re pa fl).1 =
      (mapRangeFrom n
        (setEntry
          (mapRangeFrom n (allocTable st).1 (allocTable st).2
            (alignDown rs (granularity (n + 1)))
            (alignUp re (granularity (n + 1))) opa ofl).1
          t (entryIdx (n + 1) rs)
          (descSet (tablePA (allocTable st).2) ATTR_TABLE_OR_PAGE))
        (allocTable st).2 rs re pa fl).1 := by
  rw [mapRangeFrom, hchunks]
  simp only [List.foldl_cons, List.foldl_nil]
  rw [hblock]
  simp only [Bool.false_and, Bool.false_eq_true, if_false, hsub, hfl, hout]

theorem splitDescend3 :
    (mapRangeFrom 3 blockState.store 0 4096 8192 newPa newFl).1 =
      (mapRangeFrom 2 blockState.store 1 4096 8192 newPa newFl).1 :=
  mapRangeFrom_step_subtable 2 blockState.store 0 4096 8192 newPa newFl 1
    (by decide) (by decide) (by decide)

theorem splitDescend2 :
    (mapRangeFrom 2 blockState.store 1 4096 8192 newPa newFl).1 =
      (mapRangeFrom 1 stLinked1 2 4096 8192 newPa newFl).1 := by
  have h := mapRangeFrom_step_split 1 blockState.store 1 4096 8192 newPa newFl
    0x705 0x40000000 (by decide) (by decide) (by decide) (by decide) (by decide)
  rw [h]
  rw [show (allocTable blockState.store).2 = 2 from by decide]
  rw [show alignDown 4096 (granularity (1 + 1)) = 0 from by decide]
  rw [show alignUp 8192 (granularity (1 + 1)) = 1073741824 from by decide]
  rw [show entryIdx (1 + 1) 4096 = 0 from by decide]
  rw [show descSet (tablePA 2) ATTR_TABLE_OR_PAGE = 0x3003 from by decide]
  rw [show (allocTable blockState.store).1 =
    blockState.store ++ [List.replicate 512 0] from by decide]
  unfold stLinked1 stFilled1 stNew1
  rfl

theorem getD_replicate (k i : ℕ) : (List.replicate k (0 : ℕ)).getD i 0 = 0 := by
  rw [List.getD_eq_getElem?_getD, List.getElem?_replicate]
  split <;> rfl

/-- The re-materialisation pass of the split: table 2 is filled with 512
block descriptors reproducing the old 1 GiB mapping, 2 MiB at a time. -/
theorem stFilled1_spec :
    stFilled1.length = 3 ∧
    (∀ t2, t2 ≠ 2 → stFilled1.getD t2 [] = stNew1.getD t2 []) ∧
    (stFilled1.getD 2 []).length = 512 ∧
    (∀ i < 512, (stFilled1.getD 2 []).getD i 0 =
      descSet (1073741824 + (i - 0) * 2097152) (1797 ||| ATTR_ACCESSED)) := by
  have h := mapBlockFold 512 stNew1 2 0 1073741824 1797
    (by decide) (by decide) (by norm_num) (by norm_num) (by norm_num)
    (by norm_num) (by decide)
    (fun j hj => by
      rw [show stNew1.getD 2 [] = List.replicate 512 0 from by decide]
      exact getD_replicate 512 _)
  rw [show (0 : ℕ) + 512 * 2097152 = 1073741824 from by norm_num] at h
  obtain ⟨h1, h2, h3, h4⟩ := h
  refine ⟨by rw [show stFilled1 = (mapRangeFrom 1 stNew1 2 0 1073741824 1073741824 1797).1 from rfl, h1]; decide,
    fun t2 ht2 => h2 t2 ht2, h3, fun i hi => ?_⟩
  have := h4 i hi
  rw [if_pos (by omega)] at this
  rw [show (0 : ℕ) / 2097152 % 512 = 0 from by norm_num] at this
  exact this

theorem stLinked1_length : stLinked1.length = 3 := by
  show (setEntry stFilled1 1 0 0x3003).length = 3
  rw [setEntry_length]
  exact stFilled1_spec.1

theorem getEntry_stLinked1_2_0 : getEntry stLinked1 2 0 = 0x40000705 := by
  show (stLinked1.getD 2 []).getD 0 0 = 0x40000705
  rw [show stLinked1 = setEntry stFilled1 1 0 0x3003 from rfl,
    setEntry_getD_other (by decide)]
  rw [stFilled1_spec.2.2.2 0 (by norm_num)]
  decide

theorem allocTable_fst (st : PTStore) :
    (allocTable st).1 = st ++ [List.replicate 512 0] := rfl

theorem allocTable_snd (st : PTStore) : (allocTable st).2 = st.length := rfl

theorem splitDescend1 :
    (mapRangeFrom 1 stLinked1 2 4096 8192 newPa newFl).1 =
      (mapRangeFrom 0 stLinked2 3 4096 8192 newPa newFl).1 := by
  have hidx : entryIdx (0 + 1) 4096 = 0 := by decide
  have h := mapRangeFrom_step_split 0 stLinked1 2 4096 8192 newPa newFl
    1797 1073741824 (by decide) (by decide)
    (by rw [hidx, getEntry_stLinked1_2_0]; decide)
    (by rw [hidx, getEntry_stLinked1_2_0]; decide)
    (by rw [hidx, getEntry_stLinked1_2_0]; decide)
  rw [h]
  rw [allocTable_snd, stLinked1_length]
  rw [allocTable_fst]
  rw [show alignDown 4096 (granularity (0 + 1)) = 0 from by decide]
  rw [show alignUp 8192 (granularity (0 + 1)) = 2097152 from by decide]
  rw [hidx]
  rw [show descSet (tablePA 3) ATTR_TABLE_OR_PAGE = 0x4003 from by decide]
  unfold stLinked2 stFilled2 stNew2
  rfl

/-- Hardware translation-table walk over the store (AArch64 VMSAv8-64
semantics for the 4 KiB granule): at each level a valid table descriptor is
followed, a valid block / page descriptor resolves the address, anything
else faults.  Returns the physical address and the descriptor's attribute
bits (`descLowMask` part). -/
def lookupFrom : ℕ → PTStore → ℕ → ℕ → Option (ℕ × ℕ)
  | 0, st, t, va =>
    let d := getEntry st t (entryIdx 0 va)
    if descIsValid d && descIsTableOrPage d then
      some ((d &&& descOutMask) + va % 4096, d &&& descLowMask)
    else none
  | (n + 1), st, t, va =>
    let d := getEntry st t (entryIdx (n + 1) va)
    if descIsValid d then
      if descIsTableOrPage d then
        match descSubtable d with
        | some child => lookupFrom n st child va
        | none => none
      else
        some ((d &&& descOutMask) + va % granularity (n + 1), d &&& descLowMask)
    else none

theorem lookupFrom_zero (st : PTStore) (t va : ℕ) :
    lookupFrom 0 st t va =
      if descIsValid (getEntry st t (entryIdx 0 va)) &&
          descIsTableOrPage (getEntry st t (entryIdx 0 va)) then
        some ((getEntry st t (entryIdx 0 va) &&& descOutMask) + va % 4096,
          getEntry st t (entryIdx 0 va) &&& descLowMask)
      else none := by
  rw [lookupFrom]

theorem lookupFrom_succ (n : ℕ) (st : PTStore) (t va : ℕ) :
    lookupFrom (n + 1) st t va =
      if descIsValid (getEntry st t (entryIdx (n + 1) va)) then
        if descIsTableOrPage (getEntry st t (entryIdx (n + 1) va)) then
          match descSubtable (getEntry st t (entryIdx (n + 1) va)) with
          | some child => lookupFrom n st child va
          | none => none
        else
          some ((getEntry st t (entryIdx (n + 1) va) &&& descOutMask) +
              va % granularity (n + 1),
            getEntry st t (entryIdx (n + 1) va) &&& descLowMask)
      else none := by
  rw [lookupFrom]

theorem descOutMask_testBit (i : ℕ) :
    descOutMask.testBit i = (decide (12 ≤ i) && decide (i < 48)) := by
  rw [show descOutMask = (2 ^ 36 - 1) <<< 12 from by decide]
  rw [Nat.testBit_shiftLeft, Nat.testBit_two_pow_sub_one]
  rcases Nat.lt_or_ge i 12 with h | h
  · simp [Nat.not_le.2 h]
  · simp only [decide_eq_true (h : 12 ≤ i), Bool.true_and]
    simp only [decide_eq_decide]
    omega

theorem descLowMask_testBit (i : ℕ) :
    descLowMask.testBit i =
      (decide (i < 12) || (decide (48 ≤ i) && decide (i < 64))) := by
  rw [show descLowMask = (2 ^ 12 - 1) ||| ((2 ^ 16 - 1) <<< 48) from by decide]
  rw [Nat.testBit_or, Nat.testBit_two_pow_sub_one, Nat.testBit_shiftLeft,
    Nat.testBit_two_pow_sub_one]
  rcases Nat.lt_or_ge i 48 with h | h
  · simp [Nat.not_le.2 h]
  · simp only [decide_eq_true (h : 48 ≤ i), Bool.true_and,
      decide_eq_false (by omega : ¬ i < 12), Bool.false_or]
    simp only [decide_eq_decide]
    omega

/-- Splitting a descriptor whose physical part is page-aligned and below
2^48 and whose attribute part sits in the low 12 bits. -/
theorem desc_decompose (pa g : ℕ) (hpa : pa % 4096 = 0) (hpa48 : pa < 2 ^ 48)
    (hg : g < 4096) :
    (pa ||| g) &&& descOutMask = pa ∧ (pa ||| g) &&& descLowMask = g := by
  obtain ⟨q, hq⟩ := Nat.dvd_of_mod_eq_zero hpa
  have hlowbit : ∀ i, i < 12 → pa.testBit i = false := by
    intro i hi
    rw [hq, show (4096 : ℕ) = 2 ^ 12 from rfl, Nat.testBit_mul_pow_two]
    simp [Nat.not_le.2 hi]
  have hhighbit : ∀ i, 48 ≤ i → pa.testBit i = false := by
    intro i hi
    exact Nat.testBit_lt_two_pow
      (lt_of_lt_of_le hpa48 (Nat.pow_le_pow_right (by norm_num) hi))
  have hgbit : ∀ i, 12 ≤ i → g.testBit i = false := by
    intro i hi
    apply Nat.testBit_lt_two_pow
    calc g < 4096 := hg
      _ = 2 ^ 12 := by norm_num
      _ ≤ 2 ^ i := Nat.pow_le_pow_right (by norm_num) hi
  constructor
  · apply Nat.eq_of_testBit_eq
    intro i
    rw [Nat.testBit_and, Nat.testBit_or, descOutMask_testBit]
    rcases Nat.lt_or_ge i 12 with h12 | h12
    · simp [hlowbit i h12, Nat.not_le.2 h12]
    · rcases Nat.lt_or_ge i 48 with h48 | h48
      · simp [hgbit i h12, h12, h48]
      · simp [hhighbit i h48, hgbit i h12, Nat.not_lt.2 h48]
  · apply Nat.eq_of_testBit_eq
    intro i
    rw [Nat.testBit_and, Nat.testBit_or, descLowMask_testBit]
    rcases Nat.lt_or_ge i 12 with h12 | h12
    · simp [hlowbit i h12, h12]
    · rcases Nat.lt_or_ge i 48 with h48 | h48
      · simp [hgbit i h12, Nat.not_lt.2 h12, Nat.not_le.2 h48]
      · rcases Nat.lt_or_ge i 64 with h64 | h64
        · simp [hhighbit i h48, hgbit i h12, Nat.not_lt.2 h12, h48, h64]
        · simp [hhighbit i h48, hgbit i h12, Nat.not_lt.2 h12, h48,
            Nat.not_lt.2 h64]

theorem stNew2_getD3 : stNew2.getD 3 [] = List.replicate 512 0 := by
  show (stLinked1 ++ [List.replicate 512 0]).getD 3 [] = List.replicate 512 0
  rw [← stLinked1_length]
  exact getD_append_self _ _

theorem stNew2_length : stNew2.length = 4 := by
  show (stLinked1 ++ [List.replicate 512 0]).length = 4
  rw [List.length_append, stLinked1_length]
  rfl

/-- The re-materialisation pass at the leaf: table 3 is filled with 512
page descriptors reproducing the old mapping, 4 KiB at a time. -/
theorem stFilled2_spec :
    stFilled2.length = 4 ∧
    (∀ t2, t2 ≠ 3 → stFilled2.getD t2 [] = stNew2.getD t2 []) ∧
    (stFilled2.getD 3 []).length = 512 ∧
    (∀ i < 512, (stFilled2.getD 3 []).getD i 0 =
      descSet (1073741824 + (i - 0) * 4096)
        (1797 ||| ATTR_ACCESSED ||| ATTR_TABLE_OR_PAGE)) := by
  have h := mapLeafFold 512 stNew2 3 0 1073741824 1797
    (by rw [stNew2_length]; norm_num)
    (by rw [stNew2_getD3]; simp)
    (by norm_num) (by norm_num) (by norm_num) (by decide)
  rw [show (0 : ℕ) + 512 * 4096 = 2097152 from by norm_num] at h
  obtain ⟨h1, h2, h3, h4⟩ := h
  refine ⟨by rw [show stFilled2 =
      (mapRangeFrom 0 stNew2 3 0 2097152 1073741824 1797).1 from rfl, h1,
      stNew2_length],
    fun t2 ht2 => h2 t2 ht2, h3, fun i hi => ?_⟩
  have := h4 i hi
  rw [if_pos (by omega)] at this
  rw [show (0 : ℕ) / 4096 % 512 = 0 from by norm_num] at this
  exact this

theorem stLinked2_length : stLinked2.length = 4 := by
  show (setEntry stFilled2 2 0 0x4003).length = 4
  rw [setEntry_length]
  exact stFilled2_spec.1

theorem stLinked2_getD3 : stLinked2.getD 3 [] = stFilled2.getD 3 [] := by
  show (setEntry stFilled2 2 0 0x4003).getD 3 [] = _
  exact setEntry_getD_other (by decide) _ _

/-- The final write: one new page descriptor in slot 1 of table 3. -/
theorem stFinal_spec :
    stFinal.length = 4 ∧
    (∀ t2, t2 ≠ 3 → stFinal.getD t2 [] = stLinked2.getD t2 []) ∧
    (stFinal.getD 3 []).length = 512 ∧
    (∀ i < 512, (stFinal.getD 3 []).getD i 0 =
      if 1 ≤ i ∧ i < 1 + 1 then
        descSet (newPa + (i - 1) * 4096)
          (newFl ||| ATTR_ACCESSED ||| ATTR_TABLE_OR_PAGE)
      else (stLinked2.getD 3 []).getD i 0) := by
  have h := mapLeafFold 1 stLinked2 3 4096 newPa newFl
    (by rw [stLinked2_length]; norm_num)
    (by rw [stLinked2_getD3]; exact stFilled2_spec.2.2.1)
    (by norm_num) (by norm_num) (by norm_num) (by decide)
  rw [show (4096 : ℕ) + 1 * 4096 = 8192 from by norm_num] at h
  obtain ⟨h1, h2, h3, h4⟩ := h
  refine ⟨by rw [show stFinal =
      (mapRangeFrom 0 stLinked2 3 4096 8192 newPa newFl).1 from rfl, h1,
      stLinked2_length],
    fun t2 ht2 => h2 t2 ht2, h3, fun i hi => ?_⟩
  have := h4 i hi
  rw [show (4096 : ℕ) / 4096 % 512 = 1 from by norm_num] at this
  exact this

theorem getEntry_stFinal_0 : getEntry stFinal 0 0 = 0x2003 := by
  show (stFinal.getD 0 []).getD 0 0 = 0x2003
  rw [stFinal_spec.2.1 0 (by decide),
    show stLinked2 = setEntry stFilled2 2 0 0x4003 from rfl,
    setEntry_getD_other (by decide),
    stFilled2_spec.2.1 0 (by decide),
    show stNew2 = stLinked1 ++ [List.replicate 512 0] from rfl,
    getD_append_left (by rw [stLinked1_length]; norm_num),
    show stLinked1 = setEntry stFilled1 1 0 0x3003 from rfl,
    setEntry_getD_other (by decide),
    stFilled1_spec.2.1 0 (by decide)]
  decide

theorem getEntry_stFinal_1 : getEntry stFinal 1 0 = 0x3003 := by
  show (stFinal.getD 1 []).getD 0 0 = 0x3003
  rw [stFinal_spec.2.1 1 (by decide),
    show stLinked2 = setEntry stFilled2 2 0 0x4003 from rfl,
    setEntry_getD_other (by decide),
    stFilled2_spec.2.1 1 (by decide),
    show stNew2 = stLinked1 ++ [List.replicate 512 0] from rfl,
    getD_append_left (by rw [stLinked1_length]; norm_num),
    show stLinked1 = setEntry stFilled1 1 0 0x3003 from rfl,
    setEntry_getD_same (by rw [stFilled1_spec.1]; norm_num),
    getD_set_same (by rw [stFilled1_spec.2.1 1 (by decide)]; decide)]

theorem getEntry_stFinal_2 (i : ℕ) (hi : i < 512) :
    getEntry stFinal 2 i =
      if i = 0 then 0x4003 else (1073741824 + i * 2097152) ||| 1797 := by
  show (stFinal.getD 2 []).getD i 0 = _
  rw [stFinal_spec.2.1 2 (by decide),
    show stLinked2 = setEntry stFilled2 2 0 0x4003 from rfl,
    setEntry_getD_same (by rw [stFilled2_spec.1]; norm_num)]
  have h2eq : stFilled2.getD 2 [] = stFilled1.getD 2 [] := by
    rw [stFilled2_spec.2.1 2 (by decide),
      show stNew2 = stLinked1 ++ [List.replicate 512 0] from rfl,
      getD_append_left (by rw [stLinked1_length]; norm_num),
      show stLinked1 = setEntry stFilled1 1 0 0x3003 from rfl,
      setEntry_getD_other (by decide)]
  rw [h2eq]
  by_cases h0 : i = 0
  · subst h0
    rw [getD_set_same (by rw [stFilled1_spec.2.2.1]; norm_num), if_pos rfl]
  · rw [getD_set_other (Ne.symm h0), stFilled1_spec.2.2.2 i hi, if_neg h0]
    rw [show i - 0 = i from rfl]
    unfold descSet
    congr 1

theorem getEntry_stFinal_3 (i : ℕ) (hi : i < 512) :
    getEntry stFinal 3 i =
      if i = 1 then 0x60000000999707
      else (1073741824 + i * 4096) ||| 1799 := by
  show (stFinal.getD 3 []).getD i 0 = _
  rw [stFinal_spec.2.2.2 i hi]
  by_cases h1 : i = 1
  · subst h1
    rw [if_pos (by omega), if_pos rfl]
    decide
  · rw [if_neg (by omega), if_neg h1, stLinked2_getD3,
      stFilled2_spec.2.2.2 i hi, show i - 0 = i from rfl]
    unfold descSet
    congr 1

theorem low_small {g : ℕ} (hg : g < 4096) : g &&& descLowMask = g := by
  have h := (desc_decompose 0 g (by norm_num) (by norm_num) hg).2
  rwa [Nat.zero_or] at h

theorem descIsValid_or (pa g : ℕ) (hpa : pa % 4096 = 0) :
    descIsValid (pa ||| g) = descIsValid g := by
  have h : (pa ||| g) &&& ATTR_VALID = g &&& ATTR_VALID := by
    apply Nat.eq_of_testBit_eq
    intro i
    rw [Nat.testBit_and, Nat.testBit_and, Nat.testBit_or]
    rcases Nat.eq_zero_or_pos i with h0 | h0
    · subst h0
      have hpa0 : pa.testBit 0 = false := by
        rw [Nat.testBit_zero]
        have h2 : pa % 2 = 0 := by omega
        simp [h2]
      simp [hpa0]
    · have hv : ATTR_VALID.testBit i = false :=
        Nat.testBit_lt_two_pow (lt_of_lt_of_le (by decide : ATTR_VALID < 2 ^ 1)
          (Nat.pow_le_pow_right (by norm_num) h0))
      simp [hv]
  rw [descIsValid, descIsValid, h]

theorem descFlags_or (pa g : ℕ) (hpa : pa % 4096 = 0) (hpa48 : pa < 2 ^ 48)
    (hg : g < 4096) : descFlags (pa ||| g) = descFlags g := by
  rw [descFlags, descFlags, descIsValid_or pa g hpa,
    (desc_decompose pa g hpa hpa48 hg).2, low_small hg]

theorem descIsTableOrPage_or (pa g : ℕ) (hpa : pa % 4096 = 0)
    (hpa48 : pa < 2 ^ 48) (hg : g < 4096) :
    descIsTableOrPage (pa ||| g) = descIsTableOrPage g := by
  rw [descIsTableOrPage, descIsTableOrPage, descFlags_or pa g hpa hpa48 hg]

/-- The root state after the split of S5. -/
def finalState : RootSt :=
  { store := stFinal, rootIdx := 0, rootLevel := 0, vaRange := PTVaRange.lower }

theorem splitMap_eq :
    rootMapRange blockState 4096 8192 newPa newFl = Except.ok finalState := by
  have hmap : (mapRangeFrom (LEAF_LEVEL - blockState.rootLevel)
      blockState.store blockState.rootIdx 4096 8192 newPa newFl).1 = stFinal := by
    rw [show LEAF_LEVEL - blockState.rootLevel = 3 from by decide,
      show blockState.rootIdx = 0 from rfl]
    rw [splitDescend3, splitDescend2, splitDescend1]
    unfold stFinal
    rfl
  unfold rootMapRange
  rw [if_neg (by norm_num : ¬(8192 : ℕ) < 4096)]
  rw [show blockState.vaRange = PTVaRange.lower from rfl]
  dsimp only
  rw [if_neg (by norm_num : ¬(2 ^ 63 : ℕ) ≤ 4096)]
  rw [show rootSize blockState.rootLevel = 2 ^ 48 from by decide]
  rw [if_neg (by norm_num : ¬(2 ^ 48 : ℕ) < 8192)]
  rw [hmap]
  rfl

/-- Resolution through the split hierarchy: every address of the original
gigabyte still translates, to the new page for `[0x1000, 0x2000)` and to
the original block mapping elsewhere. -/
theorem stFinal_resolve (va : ℕ) (hva : va < 1073741824) :
    ∃ p f, lookupFrom 3 stFinal 0 va = some (p, f) ∧
      (if 4096 ≤ va ∧ va < 8192
       then p = 10063872 + (va - 4096) ∧ f = 0x60000000000707
       else p = 1073741824 + va ∧ (f = 1797 ∨ f = 1799)) := by
  have hE3 : entryIdx (2 + 1) va = 0 := by
    rw [entryIdx_eq, show (12 + 9 * (2 + 1)) = 39 from by norm_num,
      Nat.div_eq_of_lt (by norm_num; omega)]
  have hE2 : entryIdx (1 + 1) va = 0 := by
    rw [entryIdx_eq, show (12 + 9 * (1 + 1)) = 30 from by norm_num,
      Nat.div_eq_of_lt (by norm_num; omega)]
  have h3 : lookupFrom 3 stFinal 0 va = lookupFrom 2 stFinal 1 va := by
    rw [show lookupFrom 3 stFinal 0 va = lookupFrom (2 + 1) stFinal 0 va from rfl,
      lookupFrom_succ, hE3, getEntry_stFinal_0,
      show descIsValid 0x2003 = true from by decide,
      show descIsTableOrPage 0x2003 = true from by decide,
      show descSubtable 0x2003 = some 1 from by decide,
      if_pos rfl, if_pos rfl]
  have h2 : lookupFrom 2 stFinal 1 va = lookupFrom 1 stFinal 2 va := by
    rw [show lookupFrom 2 stFinal 1 va = lookupFrom (1 + 1) stFinal 1 va from rfl,
      lookupFrom_succ, hE2, getEntry_stFinal_1,
      show descIsValid 0x3003 = true from by decide,
      show descIsTableOrPage 0x3003 = true from by decide,
      show descSubtable 0x3003 = some 2 from by decide,
      if_pos rfl, if_pos rfl]
  by_cases hlow : va < 2097152
  · -- inside the first 2 MiB: the walk reaches the split leaf table
    have hE1 : entryIdx (0 + 1) va = 0 := by
      rw [entryIdx_eq, show (12 + 9 * (0 + 1)) = 21 from by norm_num,
        Nat.div_eq_of_lt (by norm_num; omega)]
    have hg2 : getEntry stFinal 2 0 = 0x4003 := by
      rw [getEntry_stFinal_2 0 (by norm_num)]
      norm_num
    have h1 : lookupFrom 1 stFinal 2 va = lookupFrom 0 stFinal 3 va := by
      rw [show lookupFrom 1 stFinal 2 va = lookupFrom (0 + 1) stFinal 2 va from rfl,
        lookupFrom_succ, hE1, hg2,
        show descIsValid 0x4003 = true from by decide,
        show descIsTableOrPage 0x4003 = true from by decide,
        show descSubtable 0x4003 = some 3 from by decide,
        if_pos rfl, if_pos rfl]
    have hE0 : entryIdx 0 va = va / 4096 := by
      rw [entryIdx_eq, show (12 + 9 * 0) = 12 from by norm_num,
        show (2 : ℕ) ^ 12 = 4096 from by norm_num]
      exact Nat.mod_eq_of_lt (by omega)
    by_cases hpage : va / 4096 = 1
    · refine ⟨10063872 + va % 4096, 0x60000000000707, ?_, ?_⟩
      · rw [h3, h2, h1, lookupFrom_zero, hE0,
          getEntry_stFinal_3 (va / 4096) (by omega), if_pos hpage,
          show descIsValid 0x60000000999707 = true from by decide,
          show descIsTableOrPage 0x60000000999707 = true from by decide,
          show (0x60000000999707 : ℕ) &&& descOutMask = 10063872 from by decide,
          show (0x60000000999707 : ℕ) &&& descLowMask = 0x60000000000707 from
            by decide,
          Bool.true_and, if_pos rfl]
      · rw [if_pos (by omega)]
        exact ⟨by omega, rfl⟩
    · refine ⟨1073741824 + va, 1799, ?_, ?_⟩
      · have hpa4 : (1073741824 + va / 4096 * 4096) % 4096 = 0 := by omega
        have hpa48 : 1073741824 + va / 4096 * 4096 < 2 ^ 48 := by
          have h12 : (2 : ℕ) ^ 48 = 281474976710656 := by norm_num
          omega
        rw [h3, h2, h1, lookupFrom_zero, hE0,
          getEntry_stFinal_3 (va / 4096) (by omega), if_neg hpage,
          descIsValid_or _ 1799 hpa4,
          descIsTableOrPage_or _ 1799 hpa4 hpa48 (by norm_num),
          show descIsValid 1799 = true from by decide,
          show descIsTableOrPage 1799 = true from by decide,
          (desc_decompose _ 1799 hpa4 hpa48 (by norm_num)).1,
          (desc_decompose _ 1799 hpa4 hpa48 (by norm_num)).2,
          Bool.true_and, if_pos rfl,
          show 1073741824 + va / 4096 * 4096 + va % 4096 = 1073741824 + va from
            by omega]
      · rw [if_neg (by omega)]
        exact ⟨rfl, Or.inr rfl⟩
  · -- beyond the first 2 MiB: the walk ends at a re-materialised block
    have hE1 : entryIdx (0 + 1) va = va / 2097152 := by
      rw [entryIdx_eq, show (12 + 9 * (0 + 1)) = 21 from by norm_num,
        show (2 : ℕ) ^ 21 = 2097152 from by norm_num]
      exact Nat.mod_eq_of_lt (by omega)
    refine ⟨1073741824 + va, 1797, ?_, ?_⟩
    · have hpa4 : (1073741824 + va / 2097152 * 2097152) % 4096 = 0 := by omega
      have hpa48 : 1073741824 + va / 2097152 * 2097152 < 2 ^ 48 := by
        have h12 : (2 : ℕ) ^ 48 = 281474976710656 := by norm_num
        omega
      rw [h3, h2,
        show lookupFrom 1 stFinal 2 va = lookupFrom (0 + 1) stFinal 2 va from rfl,
        lookupFrom_succ, hE1,
        getEntry_stFinal_2 (va / 2097152) (by omega),
        if_neg (show ¬va / 2097152 = 0 from by omega),
        descIsValid_or _ 1797 hpa4,
        descIsTableOrPage_or _ 1797 hpa4 hpa48 (by norm_num),
        show descIsValid 1797 = true from by decide,
        show descIsTableOrPage 1797 = false from by decide,
        if_pos rfl, if_neg (show ¬false = true from by decide),
        (desc_decompose _ 1797 hpa4 hpa48 (by norm_num)).1,
        (desc_decompose _ 1797 hpa4 hpa48 (by norm_num)).2,
        show granularity (0 + 1) = 2097152 from by decide,
        show 1073741824 + va / 2097152 * 2097152 + va % 2097152 =
          1073741824 + va from by omega]
    · rw [if_neg (by omega)]
      exact ⟨rfl, Or.inl rfl⟩

/-- Attribute bits that the mapping engine manages itself (`VALID`,
`TABLE_OR_PAGE`, `ACCESSED`): comparing resolved flags modulo these bits
compares exactly the caller-supplied attributes. -/
def nonStructMask : ℕ :=
  W - 1 - (ATTR_VALID ||| ATTR_TABLE_OR_PAGE ||| ATTR_ACCESSED)

/-- C2: Block split preservation.  After `[0x0, 0x4000_0000)` is mapped as
one 1 GiB block with physical base `origPa` and flags `origFl`, a
`map_range([0x1000, 0x2000), newPa, newFl)` succeeds, and in the resulting
hierarchy every virtual address below `0x4000_0000` still translates (no
address becomes unmapped): addresses in `[0x1000, 0x2000)` resolve to
`newPa + (va - 0x1000)` with the new flags, and all others resolve to
`origPa + va` with the original flags (flags compared modulo the
engine-managed VALID/TABLE_OR_PAGE/ACCESSED bits). -/
theorem blockSplit_preservation (va : ℕ) (hva : va < 0x40000000) :
    rootMapRange (rootNew PTVaRange.lower 0) 0 0x40000000 origPa origFl =
      Except.ok blockState ∧
    rootMapRange blockState 0x1000 0x2000 newPa newFl = Except.ok finalState ∧
    ∃ p f, lookupFrom 3 finalState.store finalState.rootIdx va = some (p, f) ∧
      (if 0x1000 ≤ va ∧ va < 0x2000
       then p = newPa + (va - 0x1000) ∧ f &&& nonStructMask = newFl
       else p = origPa + va ∧ f &&& nonStructMask = origFl) := by
  refine ⟨blockState_eq, splitMap_eq, ?_⟩
  obtain ⟨p, f, hl, hpf⟩ := stFinal_resolve va hva
  refine ⟨p, f, ?_, ?_⟩
  · rw [show finalState = RootSt.mk stFinal 0 0 PTVaRange.lower from rfl]
    dsimp only
    exact hl
  · by_cases hwin : 4096 ≤ va ∧ va < 8192
    · rw [if_pos hwin] at hpf ⊢
      exact ⟨hpf.1, by rw [hpf.2]; decide⟩
    · rw [if_neg hwin] at hpf ⊢
      refine ⟨hpf.1, ?_⟩
      rcases hpf.2 with h | h <;> rw [h] <;> decide

/-- Witness for C2 at the concrete address `0x1800` inside the re-mapped
window. -/
theorem blockSplit_preservation_witness :
    (0x1800 : ℕ) < 0x40000000 ∧
    (rootMapRange (rootNew PTVaRange.lower 0) 0 0x40000000 origPa origFl =
        Except.ok blockState ∧
      rootMapRange blockState 0x1000 0x2000 newPa newFl =
        Except.ok finalState ∧
      ∃ p f, lookupFrom 3 finalState.store finalState.rootIdx 0x1800 =
          some (p, f) ∧
        (if (0x1000 : ℕ) ≤ 0x1800 ∧ (0x1800 : ℕ) < 0x2000
         then p = newPa + (0x1800 - 0x1000) ∧ f &&& nonStructMask = newFl
         else p = origPa + 0x1800 ∧ f &&& nonStructMask = origFl)) :=
  ⟨by decide, blockSplit_preservation 0x1800 (by decide)⟩

/-- C3: map_range error validation.  For every region `[rs, re)`, physical
base and flags, `RootTable::map_range` returns `RegionBackwards` exactly
when `re < rs`; otherwise on a Lower-range table it returns an
`AddressRange` error exactly when the start is negative as a signed word
(`2^63 ≤ rs`) or the end exceeds the addressable size, and on an
Upper-range table exactly when the start is non-negative as a signed word
(`rs < 2^63`) or the unsigned magnitude `W - rs` of the start exceeds the
addressable size; in all remaining cases it returns `Ok`. -/
theorem rootMapRange_validation (r : RootSt) (rs re pa fl : ℕ) :
    (rootMapRange r rs re pa fl =
        Except.error (PTMapError.regionBackwards rs re) ↔ re < rs) ∧
    ((∃ va, rootMapRange r rs re pa fl =
        Except.error (PTMapError.addressRange va)) ↔
      rs ≤ re ∧
        (if r.vaRange = PTVaRange.lower
         then 2 ^ 63 ≤ rs ∨ rootSize r.rootLevel < re
         else rs < 2 ^ 63 ∨ rootSize r.rootLevel < W - rs)) ∧
    ((∃ r2, rootMapRange r rs re pa fl = Except.ok r2) ↔
      rs ≤ re ∧
        (if r.vaRange = PTVaRange.lower
         then rs < 2 ^ 63 ∧ re ≤ rootSize r.rootLevel
         else 2 ^ 63 ≤ rs ∧ W - rs ≤ rootSize r.rootLevel)) := by
  unfold rootMapRange
  cases hv : r.vaRange
  · -- Lower
    rw [if_pos rfl, if_pos rfl]
    by_cases hb : re < rs
    · rw [if_pos hb]
      refine ⟨⟨fun _ => hb, fun _ => rfl⟩,
        ⟨by rintro ⟨va, h⟩; exact absurd h (by simp),
         by rintro ⟨h1, _⟩; omega⟩,
        ⟨by rintro ⟨r2, h⟩; exact absurd h (by simp),
         by rintro ⟨h1, _⟩; omega⟩⟩
    · rw [if_neg hb]
      dsimp only
      by_cases h63 : 2 ^ 63 ≤ rs
      · rw [if_pos h63]
        refine ⟨⟨fun h => absurd h (by simp), fun h => absurd h hb⟩,
          ⟨fun _ => ⟨by omega, Or.inl h63⟩, fun _ => ⟨rs, rfl⟩⟩,
          ⟨by rintro ⟨r2, h⟩; exact absurd h (by simp),
           by rintro ⟨_, h2, _⟩; omega⟩⟩
      · rw [if_neg h63]
        by_cases hsz : rootSize r.rootLevel < re
        · rw [if_pos hsz]
          refine ⟨⟨fun h => absurd h (by simp), fun h => absurd h hb⟩,
            ⟨fun _ => ⟨by omega, Or.inr hsz⟩, fun _ => ⟨re, rfl⟩⟩,
            ⟨by rintro ⟨r2, h⟩; exact absurd h (by simp),
             by rintro ⟨_, _, h3⟩; omega⟩⟩
        · rw [if_neg hsz]
          refine ⟨⟨fun h => absurd h (by simp), fun h => absurd h hb⟩,
            ⟨by rintro ⟨va, h⟩; exact absurd h (by simp),
             by rintro ⟨_, h2 | h2⟩ <;> omega⟩,
            ⟨fun _ => ⟨by omega, by omega, by omega⟩, fun _ => ⟨_, rfl⟩⟩⟩
  · -- Upper
    rw [if_neg (by decide : ¬PTVaRange.upper = PTVaRange.lower),
      if_neg (by decide : ¬PTVaRange.upper = PTVaRange.lower)]
    by_cases hb : re < rs
    · rw [if_pos hb]
      refine ⟨⟨fun _ => hb, fun _ => rfl⟩,
        ⟨by rintro ⟨va, h⟩; exact absurd h (by simp),
         by rintro ⟨h1, _⟩; omega⟩,
        ⟨by rintro ⟨r2, h⟩; exact absurd h (by simp),
         by rintro ⟨h1, _⟩; omega⟩⟩
    · rw [if_neg hb]
      dsimp only
      by_cases hcond : rs < 2 ^ 63 ∨ rootSize r.rootLevel < W - rs
      · rw [if_pos hcond]
        refine ⟨⟨fun h => absurd h (by simp), fun h => absurd h hb⟩,
          ⟨fun _ => ⟨by omega, hcond⟩, fun _ => ⟨rs, rfl⟩⟩,
          ⟨by rintro ⟨r2, h⟩; exact absurd h (by simp),
           by rintro ⟨_, h2, h3⟩; omega⟩⟩
      · rw [if_neg hcond]
        refine ⟨⟨fun h => absurd h (by simp), fun h => absurd h hb⟩,
          ⟨by rintro ⟨va, h⟩; exact absurd h (by simp),
           by rintro ⟨_, h2⟩; omega⟩,
          ⟨fun _ => ⟨by omega, by omega, by omega⟩, fun _ => ⟨_, rfl⟩⟩⟩

/-- C4 counterexample: on a fresh Upper-range table the claimed call
`map_range([0x1000, 0x2000), 0x40000, NORMAL | XN)` does NOT succeed: the
start `0x1000` is non-negative as a signed word, so the Upper-range
validation rejects it with an AddressRange error. -/
theorem onePageMap_upper_cex :
    rootMapRange (rootNew PTVaRange.upper 0) 0x1000 0x2000 0x40000
        (ATTR_NORMAL ||| ATTR_EXECUTE_NEVER) =
      Except.error (PTMapError.addressRange 0x1000) := by
  decide

/-- C4 (amended): mapping one upper-half page,
`map_range([0xFFFF_0000_0000_1000, 0xFFFF_0000_0000_2000), 0x40000,
NORMAL | XN)` on a fresh Upper-range table (T1SZ = 16, addressable size
2^48) succeeds and produces exactly one level-3 descriptor with
VALID | ACCESSED | TABLE_OR_PAGE | NORMAL | XN and output address 0x40000,
allocating exactly the three intermediate tables needed to reach it. -/
theorem onePageMap_upper :
    rootMapRange (rootNew PTVaRange.upper 0) 0xFFFF000000001000
        0xFFFF000000002000 0x40000 (ATTR_NORMAL ||| ATTR_EXECUTE_NEVER) =
      Except.ok
        { store := [(List.replicate 512 0).set 0 0x2003,
                    (List.replicate 512 0).set 0 0x3003,
                    (List.replicate 512 0).set 0 0x4003,
                    (List.replicate 512 0).set 1
                      (descSet 0x40000 (ATTR_NORMAL ||| ATTR_EXECUTE_NEVER |||
                        ATTR_ACCESSED ||| ATTR_TABLE_OR_PAGE))],
          rootIdx := 0, rootLevel := 0, vaRange := PTVaRange.upper } := by
  decide

end Flow

